import Mathlib

/-!
Verification of the CSR incidence-table family (`Table`, `STable`, `DSTable`,
from table.cpp) and the entity-set subsystem (`EntitySets`, from entsets.cpp)
of this MFEM snapshot.  Machine integers are modelled as `Int`/`Nat` (all the
quantities involved stay far below any overflow boundary in the mesh code),
the two raw arrays `I`/`J` of a table as Lean lists, and fatal `mfem_error` /
`MFEM_ABORT` exits as `none` of an `Option` result.
-/

/-- The CSR table of table.hpp: `size` rows, row-pointer array `I`
(`size+1` entries in a valid table) and column array `J`.  `I` holds
offsets into `J`; row `i` occupies `J[I[i] .. I[i+1])`.  Column entries are
`Int` because `-1` doubles as the "unset" sentinel. -/
structure Table where
  size : Nat
  I : List Nat
  J : List Int
deriving DecidableEq

/-- Value of the row-pointer array at `i` (reads of `I[i]` in the source). -/
def Table.rowBegin (t : Table) (i : Nat) : Nat := t.I.getD i 0

/-- The column entries of row `i`: the slice `J[I[i] .. I[i+1])`. -/
def Table.row (t : Table) (i : Nat) : List Int :=
  (t.J.drop (t.rowBegin i)).take (t.rowBegin (i + 1) - t.rowBegin i)

/-- The documented invariant of a built table: `I` has `size+1` entries,
starts at 0, is monotone, and its last entry is the length of `J`. -/
def Table.WF (t : Table) : Prop :=
  t.I.length = t.size + 1 ∧ t.rowBegin 0 = 0 ∧
  (∀ i, i < t.size → t.rowBegin i ≤ t.rowBegin (i + 1)) ∧
  t.rowBegin t.size = t.J.length

instance (t : Table) : Decidable t.WF := by
  unfold Table.WF; infer_instance

/-- `Table::Table(dim, connections_per_row)`: the fixed-degree constructor.
`I[i] = i * connections_per_row`, every column slot unset (`-1`). -/
def Table.fixedDegree (dim cpr : Nat) : Table :=
  ⟨dim, (List.range (dim + 1)).map (· * cpr), List.replicate (dim * cpr) (-1)⟩

/-- The scan loop shared by `Table::operator()`: walk the slots of a row
(`base` is the global index of the first slot), returning the global slot
index of the first occurrence of `j`, and `-1` on reaching an unset slot or
the end of the row. -/
def Table.scanSlots (base : Nat) (row : List Int) (j : Int) : Int :=
  match row with
  | [] => -1
  | c :: rest =>
      if c = j then (base : Int)
      else if c = -1 then -1
      else Table.scanSlots (base + 1) rest j

/-- `Table::operator()(i,j)`: out-of-range row gives `-1`; otherwise scan
row `i` for `j`, stopping early at an unset slot.  A pure lookup: it takes
the table by value and returns only the slot index. -/
def Table.lookup (t : Table) (i j : Int) : Int :=
  if (t.size : Int) ≤ i ∨ i < 0 then -1
  else Table.scanSlots (t.rowBegin i.toNat) (t.row i.toNat) j

/-- Outcome of the `Table::Push` row scan: an existing slot already holding
`j` (no write), the first unset slot (which receives `j`), or no usable
slot (the `mfem_error` capacity abort). -/
inductive PushResult where
  | found (k : Nat)
  | wrote (k : Nat)
  | overflow

/-- The scan loop of `Table::Push`: first slot equal to `j` is returned
as-is; otherwise the first unset slot is written. -/
def Table.pushSlots (base : Nat) (row : List Int) (j : Int) : PushResult :=
  match row with
  | [] => .overflow
  | c :: rest =>
      if c = j then .found base
      else if c = -1 then .wrote base
      else Table.pushSlots (base + 1) rest j

/-- `Table::Push(i,j)` on a valid row index: the returned slot index plus
the table after the call; `none` models the fatal capacity `mfem_error`.
(The source's debug bounds check on `i` is reflected by the `i < size`
hypotheses of the theorems below.) -/
def Table.Push (t : Table) (i : Nat) (j : Int) : Option (Nat × Table) :=
  match Table.pushSlots (t.rowBegin i) (t.row i) j with
  | .found k => some (k, t)
  | .wrote k => some (k, ⟨t.size, t.I, t.J.set k j⟩)
  | .overflow => none

/-- `Table::Finalize()`.  The first loop counts the non-sentinel entries of
`J[0 .. I[size])` into `sum`; if some sentinel remains, each row is copied
into a fresh `sum`-slot array up to (excluding) its first sentinel — the
source `break`s at the first `-1` of a row — and `I` is rebuilt from the
write counter.  The fresh C++ array `new int[sum]` is uninitialized; the
slots the copy loop never writes are modelled by the arbitrary value
`junk`. -/
def Table.Finalize (t : Table) (junk : Int) : Table :=
  let nnz := t.rowBegin t.size
  let sum := ((t.J.take nnz).filter (· ≠ -1)).length
  if sum = nnz then t
  else
    let rows' := (List.range t.size).map (fun i => (t.row i).takeWhile (· ≠ -1))
    let n := rows'.flatten.length
    ⟨t.size,
     (List.range t.size).map (fun i => ((rows'.take i).map List.length).sum) ++ [sum],
     rows'.flatten ++ List.replicate (sum - n) junk⟩

/-- `Table::Width()`: the maximum column entry of `J[0 .. I[size])` plus
one, the fold starting from `-1` exactly as in the source. -/
def Table.widthInt (t : Table) : Int :=
  (t.J.take (t.rowBegin t.size)).foldl (fun w c => if c > w then c else w) (-1) + 1

/-- Assemble a table from explicit per-row column lists: `I` is the running
write counter of the construction loops in the source (its value at the
start of each row, closed by the total) and `J` the concatenation of the
rows.  `Table::Finalize` and `Mult` produce exactly this shape. -/
def Table.ofRows (rs : List (List Int)) : Table :=
  ⟨rs.length,
   (List.range rs.length).map (fun i => ((rs.take i).map List.length).sum) ++
     [(rs.map List.length).sum],
   rs.flatten⟩

/-! Entity-set refinement loops (entsets.cpp).  A group is the ordered list
of entity indices of one named set; the loops below rewrite one group in
place, exactly as `EntitySets::QuadUniformRefinement` and
`EntitySets::HexUniformRefinement` do.  `std::vector::resize`
value-initializes the newly added slots to 0. -/

/-- ELEMENT-set loop of `EntitySets::QuadUniformRefinement` on one group:
resize from `n = g.length` to `4n`, then for every parent position `i`
holding element `e` write the children `NumOfElements_ + 3e + {0,1,2}` at
positions `n + 3i + {0,1,2}`; slot `i` itself keeps `e` (child 0). -/
def quadRefineElementGroup (numOfElements : Int) (g : List Int) : List Int :=
  (List.range g.length).foldl
    (fun acc i =>
      let e := acc.getD i 0
      let j := numOfElements + 3 * e
      ((acc.set (g.length + 3 * i) j).set (g.length + 3 * i + 1) (j + 1)).set
        (g.length + 3 * i + 2) (j + 2))
    (g ++ List.replicate (3 * g.length) 0)

/-- ELEMENT-set loop of `EntitySets::HexUniformRefinement` on one group:
resize from `n` to `8n`, then write children `NumOfElements_ + 7e + {0..6}`
at positions `n + 7i + {0..6}`; slot `i` keeps `e`. -/
def hexRefineElementGroup (numOfElements : Int) (g : List Int) : List Int :=
  (List.range g.length).foldl
    (fun acc i =>
      let e := acc.getD i 0
      let j := numOfElements + 7 * e
      ((((((acc.set (g.length + 7 * i) j).set (g.length + 7 * i + 1) (j + 1)).set
        (g.length + 7 * i + 2) (j + 2)).set (g.length + 7 * i + 3) (j + 3)).set
        (g.length + 7 * i + 4) (j + 4)).set (g.length + 7 * i + 5) (j + 5)).set
        (g.length + 7 * i + 6) (j + 6))
    (g ++ List.replicate (7 * g.length) 0)

/-- EDGE-set loop, textually identical in `QuadUniformRefinement` and
`HexUniformRefinement`, on one group: resize from `n` to `2n`, then for
position `i` holding edge `old_edge` with endpoints
`v = edge_vertex_->GetRow(old_edge)` store the vertex-pair-table entries
`(*v_to_v)(v[0], oedge + old_edge)` at position `i` and
`(*v_to_v)(v[1], oedge + old_edge)` at position `i + n`, where
`oedge = NumOfVertices_` is the pre-refinement vertex count.  The
vertex-to-vertex `DSTable` is filled by `Mesh::GetVertexToVertexTable` and
`edge_vertex_` comes from the mesh; both live outside these sources, so
they enter as the parameters `vv` and `ev`. -/
def refineEdgeGroup (vv : Int → Int → Int) (ev : Int → Int × Int) (oedge : Int)
    (g : List Int) : List Int :=
  (List.range g.length).foldl
    (fun acc i =>
      let old_edge := acc.getD i 0
      let v := ev old_edge
      (acc.set i (vv v.1 (oedge + old_edge))).set (i + g.length)
        (vv v.2 (oedge + old_edge)))
    (g ++ List.replicate g.length 0)

/-! The dynamic row table `DSTable` of table.hpp/table.cpp. -/

/-- `DSTable`: one linked chain of `Node { Column, Index, Prev }` per row,
newest node first (a chain is modelled as the list of its
`(Column, Index)` pairs), plus the running entry counter `NumEntries`. -/
structure DSTable where
  NumRows : Nat
  Rows : List (List (Int × Nat))
  NumEntries : Nat
deriving DecidableEq

/-- `DSTable::DSTable(nrows)`: every row chain starts empty, no entries. -/
def DSTable.init (nrows : Nat) : DSTable := ⟨nrows, List.replicate nrows [], 0⟩

/-- The chain walk shared by `DSTable::Push_` and `DSTable::Index`:
follow `Prev` links looking for a node with the given column. -/
def DSTable.findNode : List (Int × Nat) → Int → Option Nat
  | [], _ => none
  | nd :: rest, c => if nd.1 = c then some nd.2 else DSTable.findNode rest c

/-- `DSTable::Push_(r,c)` for `r` in range (an out-of-range row is the
debug-mode fatal `mfem_error`, reflected in the range hypotheses of the
theorems): return the index of an existing node for column `c`, or prepend
a fresh node carrying the next index `NumEntries` and return that index
while bumping the counter. -/
def DSTable.Push_ (t : DSTable) (r : Nat) (c : Int) : Nat × DSTable :=
  match DSTable.findNode (t.Rows.getD r []) c with
  | some idx => (idx, t)
  | none =>
      (t.NumEntries,
       ⟨t.NumRows, t.Rows.set r ((c, t.NumEntries) :: t.Rows.getD r []), t.NumEntries + 1⟩)

/-- `DSTable::Index(r,c)`: the read-only scan; `-1` when the row is out of
range or the column is absent, never allocating. -/
def DSTable.Index (t : DSTable) (r : Nat) (c : Int) : Int :=
  if t.NumRows ≤ r then -1
  else
    match DSTable.findNode (t.Rows.getD r []) c with
    | some idx => (idx : Int)
    | none => -1

/-- Run a sequence of `Push_` calls (the way the mesh layer fills a
vertex-pair table), keeping the final table. -/
def DSTable.pushAll (t : DSTable) (ps : List (Nat × Int)) : DSTable :=
  ps.foldl (fun t p => (t.Push_ p.1 p.2).2) t

/-- The distinct pairs of `ps` in order of first occurrence. -/
def firstSeen (ps : List (Nat × Int)) : List (Nat × Int) :=
  ps.foldl (fun acc p => if p ∈ acc then acc else acc ++ [p]) []

/-- The abstraction relating a `DSTable` to the list `D` of distinct pairs
pushed so far in first-seen order: the counter is `D.length`, all rows are
in range, and row `r`'s chain holds column `c` with index `i` exactly when
`D[i] = (r, c)`. -/
def DSTable.Models (t : DSTable) (D : List (Nat × Int)) : Prop :=
  t.Rows.length = t.NumRows ∧
  t.NumEntries = D.length ∧
  D.Nodup ∧
  (∀ p ∈ D, p.1 < t.NumRows) ∧
  (∀ (r : Nat) (c : Int) (i : Nat), (c, i) ∈ t.Rows.getD r [] ↔ D[i]? = some (r, c))

/-! The entity-set loader (entsets.cpp).  The text format is line- and
token-oriented; the embedding works on a pre-tokenized stream where
`Tok.str` is a token read by `getline` or `input >> ident` and `Tok.num`
a token read into an `int`.  `skip_comment_lines` and `filter_dos` are
tokenizer details with no effect on a comment-free well-formed stream. -/

inductive Tok where
  | str (s : String)
  | num (z : Int)
deriving DecidableEq

/-- The entity kinds of `EntitySets::EntityType` (the INVALID value only
serves as an initializer in the source and never reaches the loader). -/
inductive EntityType where
  | VERTEX
  | EDGE
  | FACE
  | ELEMENT
deriving DecidableEq

/-- The part of an `EntitySets` instance the loader touches: per kind the
ordered named groups (`sets_[t]` and `set_names_[t]`, kept as pairs), plus
whether `CopyMeshTables()` has (re-)acquired the mesh adjacency tables.
The tables themselves, and the `set_index_by_name_` maps, live outside
what the claims need. -/
structure EntitySets where
  vertexSets : List (String × List Int)
  edgeSets : List (String × List Int)
  faceSets : List (String × List Int)
  elementSets : List (String × List Int)
  meshTablesCopied : Bool
deriving DecidableEq

/-- A freshly constructed instance: `sets_(4)` holds four empty vectors
and no mesh table has been taken over. -/
def EntitySets.empty : EntitySets := ⟨[], [], [], [], false⟩

def EntitySets.sets (es : EntitySets) : EntityType → List (String × List Int)
  | .VERTEX => es.vertexSets
  | .EDGE => es.edgeSets
  | .FACE => es.faceSets
  | .ELEMENT => es.elementSets

/-- `EntitySets::GetNumSets(t)`: the number of groups of one kind. -/
def EntitySets.GetNumSets (es : EntitySets) (t : EntityType) : Nat := (es.sets t).length

/-- `EntitySets::CopyMeshTables()` re-acquires the edge-vertex,
face-vertex and face-edge tables and refreshes the vertex/edge/element
counts from the mesh; tables and counts live in the out-of-scope `Mesh`,
so the model records only that the acquisition happened. -/
def EntitySets.CopyMeshTables (es : EntitySets) : EntitySets :=
  { es with meshTablesCopied := true }

/-- A word read by `input >> ident`; a numeric token in word position is
a keyword mismatch in every use below, and both abort. -/
def readStr : List Tok → Option (String × List Tok)
  | Tok.str s :: rest => some (s, rest)
  | _ => none

/-- An integer read by `input >> n`. -/
def readInt : List Tok → Option (Int × List Tok)
  | Tok.num z :: rest => some (z, rest)
  | _ => none

/-- `getline`: any token starts a line (a numeric line reads back as its
decimal text); an exhausted stream leaves the string empty, which then
fails whatever keyword or version comparison follows. -/
def readLine : List Tok → String × List Tok
  | Tok.str s :: rest => (s, rest)
  | Tok.num z :: rest => (toString z, rest)
  | [] => ("", [])

/-- One entity of `EntitySets::LoadEntitySets`' inner loop: VERTEX and
ELEMENT read one index; EDGE reads two vertices and resolves them through
the vertex-to-vertex table (`v_to_v`, filled by the out-of-scope
`Mesh::GetVertexToVertexTable`, abstracted as `vv`); FACE reads a
geometry tag — 2 means a triangle with three vertices, 3 a quadrilateral
with four, resolved through the out-of-scope faces table (`ft3`/`ft4`) —
and any other tag is the fatal `MFEM_ABORT`. -/
def loadEntity (vv : Int → Int → Int) (ft3 : Int → Int → Int → Int)
    (ft4 : Int → Int → Int → Int → Int) (t : EntityType) (input : List Tok) :
    Option (Int × List Tok) :=
  match t with
  | .VERTEX => readInt input
  | .ELEMENT => readInt input
  | .EDGE =>
      match readInt input with
      | none => none
      | some (v0, input) =>
          match readInt input with
          | none => none
          | some (v1, input) => some (vv v0 v1, input)
  | .FACE =>
      match readInt input with
      | none => none
      | some (g, input) =>
          if g = 2 then
            match readInt input with
            | none => none
            | some (v0, input) =>
                match readInt input with
                | none => none
                | some (v1, input) =>
                    match readInt input with
                    | none => none
                    | some (v2, input) => some (ft3 v0 v1 v2, input)
          else if g = 3 then
            match readInt input with
            | none => none
            | some (v0, input) =>
                match readInt input with
                | none => none
                | some (v1, input) =>
                    match readInt input with
                    | none => none
                    | some (v2, input) =>
                        match readInt input with
                        | none => none
                        | some (v3, input) => some (ft4 v0 v1 v2 v3, input)
          else none

/-- The inner loop of `LoadEntitySets`: `NumEntities` entities of one
set. -/
def loadEntityList (vv : Int → Int → Int) (ft3 : Int → Int → Int → Int)
    (ft4 : Int → Int → Int → Int → Int) (t : EntityType) :
    Nat → List Tok → Option (List Int × List Tok)
  | 0, input => some ([], input)
  | k + 1, input =>
      match loadEntity vv ft3 ft4 t input with
      | none => none
      | some (e, input) =>
          match loadEntityList vv ft3 ft4 t k input with
          | none => none
          | some (es, input) => some (e :: es, input)

/-- The outer loop of `LoadEntitySets`: `NumSets` sets, each a `getline`
name, an entity count (`std::vector::resize` on a negative count throws,
modelled `none`) and that many entities. -/
def loadSetList (vv : Int → Int → Int) (ft3 : Int → Int → Int → Int)
    (ft4 : Int → Int → Int → Int → Int) (t : EntityType) :
    Nat → List Tok → Option (List (String × List Int) × List Tok)
  | 0, input => some ([], input)
  | k + 1, input =>
      let nm := readLine input
      match readInt nm.2 with
      | none => none
      | some (numEnt, input) =>
          if numEnt < 0 then none
          else
            match loadEntityList vv ft3 ft4 t numEnt.toNat input with
            | none => none
            | some (ents, input) =>
                match loadSetList vv ft3 ft4 t k input with
                | none => none
                | some (rest, input) => some ((nm.1, ents) :: rest, input)

/-- `EntitySets::LoadEntitySets(input, t, header)`: verify the section
keyword (`MFEM_VERIFY`, fatal on mismatch), read `NumSets` (a negative
count makes `resize` throw) and parse the sets. -/
def LoadEntitySets (vv : Int → Int → Int) (ft3 : Int → Int → Int → Int)
    (ft4 : Int → Int → Int → Int → Int) (t : EntityType) (header : String)
    (input : List Tok) : Option (List (String × List Int) × List Tok) :=
  match readStr input with
  | none => none
  | some (ident, input) =>
      if ident = header then
        match readInt input with
        | none => none
        | some (numSets, input) =>
            if numSets < 0 then none
            else loadSetList vv ft3 ft4 t numSets.toNat input
      else none

/-- `EntitySets::Load(input)`: read the first line; on `"MFEM sets v1.0"`
parse `dimension`, then the vertex sets, the edge sets when `Dim > 1`,
the face sets when `Dim > 2`, and the element sets, finishing with
`CopyMeshTables()`; any other first line means the file has no entity
sets and the instance is returned untouched. -/
def EntitySets.Load (vv : Int → Int → Int) (ft3 : Int → Int → Int → Int)
    (ft4 : Int → Int → Int → Int → Int) (input : List Tok) (es : EntitySets) :
    Option EntitySets :=
  let fl := readLine input
  if fl.1 = "MFEM sets v1.0" then
    match readStr fl.2 with
    | none => none
    | some (ident, input) =>
        if ident = "dimension" then
          match readInt input with
          | none => none
          | some (dim, input) =>
              match LoadEntitySets vv ft3 ft4 .VERTEX "vertex_sets" input with
              | none => none
              | some (vsets, input) =>
                  match (if dim > 1 then LoadEntitySets vv ft3 ft4 .EDGE "edge_sets" input
                         else some (es.edgeSets, input)) with
                  | none => none
                  | some (esets, input) =>
                      match (if dim > 2 then LoadEntitySets vv ft3 ft4 .FACE "face_sets" input
                             else some (es.faceSets, input)) with
                      | none => none
                      | some (fsets, input) =>
                          match LoadEntitySets vv ft3 ft4 .ELEMENT "element_sets" input with
                          | none => none
                          | some (elsets, _) =>
                              some (EntitySets.CopyMeshTables
                                ⟨vsets, esets, fsets, elsets, es.meshTablesCopied⟩)
        else none
  else some es

/-- A minimal section of the text format: the keyword line followed by a
zero set count. -/
def sectionToks (header : String) : List Tok := [Tok.str header, Tok.num 0]

/-- A v1.0 stream with dimension `d`, empty vertex and element sections,
and optional (empty) edge and face sections. -/
def v10Stream (d : Int) (edgeSec faceSec : Bool) : List Tok :=
  Tok.str "MFEM sets v1.0" :: Tok.str "dimension" :: Tok.num d ::
    (sectionToks "vertex_sets" ++
      (if edgeSec then sectionToks "edge_sets" else []) ++
      (if faceSec then sectionToks "face_sets" else []) ++
      sectionToks "element_sets")

/-! Pattern composition `Mult` (table.cpp). -/

/-- The innermost loop of `Mult` over row `k` of `B`: each column `m`
whose marker slot does not carry the current row stamp `i` is stamped and
emitted; the marker is never cleared, the row stamp alone distinguishes
fresh slots (`B_marker[m] != i`).  The state is the marker array paired
with the columns emitted for the current output row. -/
def multScanB (i : Nat) (brow : List Int) (st : List Int × List Int) :
    List Int × List Int :=
  brow.foldl
    (fun st m =>
      if st.1.getD m.toNat 0 ≠ (i : Int) then (st.1.set m.toNat (i : Int), st.2 ++ [m])
      else st)
    st

/-- The middle loop of `Mult` over row `i` of `A`: scan row `k` of `B`
for every `k = j_A[j]` in the row, starting a fresh output row. -/
def multRowC (B : Table) (i : Nat) (marker : List Int) (arow : List Int) :
    List Int × List Int :=
  arow.foldl (fun st k => multScanB i (B.row k.toNat) st) (marker, [])

/-- The outer loop of `Mult` over the rows of `A`: the marker array
(allocated with one slot per column of `B` and initialized to `-1`) is
shared across rows, and the emitted rows are collected in order.  The
source runs this walk twice — pass 1 counting `counter` to size `C`,
pass 2 writing `j_C` and setting `i_C[i]` to the counter at each row
start — and the two passes perform identical marker updates, so a single
walk yields both the row contents and, through their lengths, the
sizing. -/
def multRows (A B : Table) : List Int × List (List Int) :=
  (List.range A.size).foldl
    (fun st i =>
      let p := multRowC B i st.1 (A.row i)
      (p.1, st.2 ++ [p.2]))
    (List.replicate B.widthInt.toNat (-1), [])

/-- `Mult(A, B, C)`: the fatal `mfem_error` when `A.Width() > B.Size()`,
otherwise the table with one output row per row of `A` (`i_C[i]` is the
counter value at the start of row `i`, `i_C[nrows_A]` the total set by
`SetDims`, and `j_C` the emitted columns — exactly `Table.ofRows` of the
emitted rows). -/
def Mult (A B : Table) : Option Table :=
  if (B.size : Int) < A.widthInt then none
  else some (Table.ofRows (multRows A B).2)

/-- The outer walk of `Mult` truncated to the first `N` rows of `A` (the
full walk is `multRowsAux A B A.size = multRows A B`); the proofs below
induct on `N`. -/
def multRowsAux (A B : Table) (N : Nat) : List Int × List (List Int) :=
  (List.range N).foldl
    (fun st i =>
      let p := multRowC B i st.1 (A.row i)
      (p.1, st.2 ++ [p.2]))
    (List.replicate B.widthInt.toNat (-1), [])

/-- The marker-array invariant inside one output row `i`: the marker has
one slot per column of `B`, the emitted columns are distinct, a slot
carries the stamp `i` exactly when its column has been emitted for this
row, and no slot carries a stamp beyond `i`. -/
def MarkerInv (W i : Nat) (marker emitted : List Int) : Prop :=
  marker.length = W ∧
  emitted.Nodup ∧
  (∀ n, n < W → (marker.getD n 0 = (i : Int) ↔ (n : Int) ∈ emitted)) ∧
  (∀ n, n < W → marker.getD n 0 ≤ (i : Int))

/-! Pattern transpose `Transpose(A, At, ncols)` (table.cpp). -/

/-- The histogram pass of `Transpose`: `i_At[j_A[i] + 1]++` for every
entry of `j_A` (the loop runs over `i < nnz = I[size]`, i.e. over
`J.take nnz`, which is all of `J` on a well-formed table). -/
def transHist (cols : List Int) (arr : List Nat) : List Nat :=
  cols.foldl (fun a c => a.set (c.toNat + 1) (a.getD (c.toNat + 1) 0 + 1)) arr

/-- The partial prefix-sum pass of `Transpose`:
`for (i = 1; i < ncols; i++) i_At[i+1] += i_At[i]`. -/
def transPrefix (ncols : Nat) (arr : List Nat) : List Nat :=
  (List.range' 1 (ncols - 1)).foldl
    (fun a i => a.set (i + 1) (a.getD (i + 1) 0 + a.getD i 0)) arr

/-- The entries of `A` in iteration order of the nested
`for i < nrows / for j in row i` loops, as `(row, column)` pairs. -/
def Table.pairs (t : Table) : List (Nat × Int) :=
  (List.range t.size).flatMap (fun i => (t.row i).map (fun c => (i, c)))

/-- The scatter pass of `Transpose`: for each entry `(i, c)` of `A`,
`j_At[i_At[c]] = i; i_At[c]++` — the row-pointer array doubles as the
per-bucket write cursor. -/
def transScatter (ps : List (Nat × Int)) (st : List Nat × List Int) :
    List Nat × List Int :=
  ps.foldl
    (fun st p =>
      (st.1.set p.2.toNat (st.1.getD p.2.toNat 0 + 1),
       st.2.set (st.1.getD p.2.toNat 0) (p.1 : Int)))
    st

/-- `Transpose(A, At, _ncols_A)` with an explicit column count (the
default `-1` makes the source use `A.Width()`; the claims fix
`ncols ≥ A.Width()`).  `At.SetDims(ncols, nnz)` allocates `i_At` with
`ncols+1` slots (all are then zeroed by the explicit loop) and `j_At`
with `nnz` uninitialized slots, modelled 0 — the scatter writes every
slot on a well-formed input.  The final shift loop
(`i_At[i] = i_At[i-1]`, `i_At[0] = 0`) turns the post-scatter cursors
into the row pointers `0 :: cur.take ncols`. -/
def Transpose (A : Table) (ncols : Nat) : Table :=
  let nnz := A.rowBegin A.size
  let pre := transPrefix ncols (transHist (A.J.take nnz) (List.replicate (ncols + 1) 0))
  let st := transScatter A.pairs (pre, List.replicate nnz 0)
  ⟨ncols, 0 :: st.1.take ncols, st.2⟩

/-- Number of entries of the pair list `ps` that fall into column bucket
`c` of `Transpose` (the histogram pass counts exactly these into slot
`c+1`). -/
def colCount (ps : List (Nat × Int)) (c : Nat) : Nat :=
  ps.countP (fun q => q.2.toNat = c)

/-- Start offset of column bucket `c` in the transposed `J` array: the
total number of entries in buckets `0 .. c-1` (the value the partial
prefix-sum pass leaves in `i_At[c]`). -/
def colStart (ps : List (Nat × Int)) (c : Nat) : Nat :=
  match c with
  | 0 => 0
  | c + 1 => colStart ps c + colCount ps c

-- ===== end of Table definitions; more definitions are added below, all
-- ===== theorems come after the last definition.

-- ===== THEOREMS =====

/-! Generic list helpers. -/

theorem getD_set_eq {α : Type} (l : List α) (i : Nat) (a d : α) (h : i < l.length) :
    (l.set i a).getD i d = a := by
  rw [List.getD_eq_getElem?_getD, List.getElem?_set_self h]; rfl

theorem getD_set_neq {α : Type} (l : List α) (i j : Nat) (a d : α) (h : i ≠ j) :
    (l.set i a).getD j d = l.getD j d := by
  rw [List.getD_eq_getElem?_getD, List.getElem?_set_ne h, ← List.getD_eq_getElem?_getD]

/-! Lemmas about the `Table::operator()` scan on a row whose unset slots
form a suffix (`ns ++ replicate m (-1)` with `-1 ∉ ns`). -/

theorem scanSlots_found (j : Int) (ns rest : List Int) (hns : -1 ∉ ns) (hj : j ∈ ns) :
    ∀ base : Nat, ∃ p, p < ns.length ∧
      Table.scanSlots base (ns ++ rest) j = ((base + p : Nat) : Int) ∧ ns.getD p 0 = j := by
  induction ns with
  | nil => cases hj
  | cons c ns ih =>
      intro base
      by_cases hc : c = j
      · exact ⟨0, by simp, by simp [Table.scanSlots, hc], by simp [hc]⟩
      · have hj' : j ∈ ns := by
          rcases List.mem_cons.mp hj with h | h
          · exact absurd h.symm hc
          · exact h
        have hcm : c ≠ -1 := fun h => hns (by simp [h])
        obtain ⟨p, hp, hscan, hval⟩ := ih (fun h => hns (List.mem_cons_of_mem _ h)) hj' (base + 1)
        refine ⟨p + 1, by simpa using hp, ?_, by simpa using hval⟩
        have hcast : ((base + 1 + p : Nat) : Int) = ((base + (p + 1) : Nat) : Int) := by
          push_cast; ring
        simp only [List.cons_append, Table.scanSlots, if_neg hc, if_neg hcm]
        exact hscan.trans hcast

theorem scanSlots_not_mem (j : Int) (ns : List Int) (m : Nat) (hns : -1 ∉ ns) (hj : j ∉ ns)
    (hjm : j = -1 → m = 0) :
    ∀ base : Nat, Table.scanSlots base (ns ++ List.replicate m (-1)) j = -1 := by
  induction ns with
  | nil =>
      intro base
      cases m with
      | zero => simp [Table.scanSlots]
      | succ m =>
          have hne : j ≠ -1 := fun h => by simpa using hjm h
          have hne' : ¬((-1 : Int) = j) := fun h => hne h.symm
          simp [Table.scanSlots, List.replicate_succ, hne']
  | cons c ns ih =>
      intro base
      have hc : c ≠ j := fun h => hj (by simp [h])
      have hcm : c ≠ -1 := fun h => hns (by simp [h])
      simp only [List.cons_append, Table.scanSlots, if_neg hc, if_neg hcm]
      exact ih (fun h => hns (List.mem_cons_of_mem _ h)) (fun h => hj (List.mem_cons_of_mem _ h))
        (base + 1)

theorem scanSlots_sentinel (ns : List Int) (m : Nat) (hns : -1 ∉ ns) (hm : 0 < m) :
    ∀ base : Nat, Table.scanSlots base (ns ++ List.replicate m (-1)) (-1) =
      ((base + ns.length : Nat) : Int) := by
  induction ns with
  | nil =>
      intro base
      cases m with
      | zero => exact absurd hm (by simp)
      | succ m => simp [Table.scanSlots, List.replicate_succ]
  | cons c ns ih =>
      intro base
      have hcm : c ≠ -1 := fun h => hns (by simp [h])
      have h1 := ih (fun h => hns (List.mem_cons_of_mem _ h)) (base + 1)
      have hcast : ((base + 1 + ns.length : Nat) : Int) = ((base + (c :: ns).length : Nat) : Int) := by
        push_cast [List.length_cons]; ring
      simp only [List.cons_append, Table.scanSlots, if_neg hcm]
      exact h1.trans hcast

/-- C9 (amended): on a table whose rows keep unset slots only as a trailing
suffix — the shape produced by the fixed-degree constructor and preserved
by `Push` — `Table::operator()(i,j)` never fails: an out-of-range row
index (negative or `≥ size`) gives `-1`; if `j` occurs in row `i` the
result is the global index of a slot of that row holding `j`; if `j` is
absent the result is `-1`.  The lookup is `const` in the source and is a
pure function of the table here, so the table is not modified. -/
theorem c9_lookup_total (t : Table) :
    (∀ i j : Int, ((t.size : Int) ≤ i ∨ i < 0) → t.lookup i j = -1) ∧
    (∀ (i : Nat) (j : Int) (ns : List Int) (m : Nat), i < t.size →
      t.row i = ns ++ List.replicate m (-1) → -1 ∉ ns →
      ((j ∈ t.row i → ∃ p, p < (t.row i).length ∧
          t.lookup (i : Int) j = ((t.rowBegin i + p : Nat) : Int) ∧ (t.row i).getD p 0 = j) ∧
       (j ∉ t.row i → t.lookup (i : Int) j = -1))) := by
  constructor
  · intro i j h
    rw [Table.lookup, if_pos h]
  · intro i j ns m hi hrow hns
    have hcond : ¬((t.size : Int) ≤ (i : Int) ∨ (i : Int) < 0) := by
      push_neg
      exact ⟨by exact_mod_cast hi, by positivity⟩
    have hlk : t.lookup (i : Int) j = Table.scanSlots (t.rowBegin i) (t.row i) j := by
      rw [Table.lookup, if_neg hcond, Int.toNat_natCast]
    constructor
    · intro hmem
      by_cases hjns : j ∈ ns
      · obtain ⟨p, hp, hscan, hval⟩ := scanSlots_found j ns (List.replicate m (-1)) hns hjns
          (t.rowBegin i)
        refine ⟨p, ?_, ?_, ?_⟩
        · rw [hrow, List.length_append]; omega
        · rw [hlk, hrow]; exact hscan
        · rw [hrow, List.getD_append _ _ _ _ hp]; exact hval
      · have hrep : j ∈ List.replicate m (-1) := by
          rw [hrow] at hmem
          rcases List.mem_append.mp hmem with h | h
          · exact absurd h hjns
          · exact h
        obtain ⟨hm, hj1⟩ := List.mem_replicate.mp hrep
        refine ⟨ns.length, ?_, ?_, ?_⟩
        · rw [hrow, List.length_append, List.length_replicate]; omega
        · rw [hlk, hrow, hj1]
          exact scanSlots_sentinel ns m hns (Nat.pos_of_ne_zero hm) (t.rowBegin i)
        · rw [hrow, List.getD_append_right _ _ _ _ (le_refl _), Nat.sub_self, hj1]
          cases m with
          | zero => exact absurd rfl hm
          | succ m => simp [List.replicate_succ]
    · intro hmem
      have hjns : j ∉ ns := fun h => hmem (by rw [hrow]; exact List.mem_append_left _ h)
      have hjm : j = -1 → m = 0 := by
        intro hj1
        by_contra hm0
        exact hmem (by
          rw [hrow, hj1]
          exact List.mem_append_right _ (List.mem_replicate.mpr ⟨hm0, rfl⟩))
      rw [hlk, hrow]
      exact scanSlots_not_mem j ns m hns hjns hjm (t.rowBegin i)

/-- C9 counterexample: the claim quantifies over every StaticTable, but on
the table with a single row `[-1, 5]` (an unset slot in front of a real
column, reachable through the explicit-dims protocol) the lookup of the
present column 5 returns `-1` instead of its slot index 1, because the
scan stops at the first unset slot. -/
theorem c9_lookup_counterexample :
    Table.lookup ⟨1, [0, 2], [-1, 5]⟩ 0 5 = -1 ∧
    (5 : Int) ∈ (Table.mk 1 [0, 2] [-1, 5]).row 0 := by decide

theorem c9_lookup_total_witness :
    Table.lookup ⟨1, [0, 2], [5, -1]⟩ (-3) 7 = -1 ∧ Table.lookup ⟨1, [0, 2], [5, -1]⟩ 0 9 = -1 :=
  ⟨(c9_lookup_total ⟨1, [0, 2], [5, -1]⟩).1 (-3) 7 (by decide),
   ((c9_lookup_total ⟨1, [0, 2], [5, -1]⟩).2 0 9 [5] 1 (by decide) (by decide) (by decide)).2
     (by decide)⟩

/-! Lemmas about the `Table::Push` scan. -/

theorem take_set_of_lt {α : Type} (l : List α) (p n : Nat) (v : α) (h : p < n) :
    (l.set p v).take n = (l.take n).set p v := by
  apply List.ext_getElem?
  intro k
  by_cases hk : k = p
  · subst hk
    rw [List.getElem?_take, if_pos h]
    by_cases hkl : k < l.length
    · rw [List.getElem?_set_self hkl,
        List.getElem?_set_self (by simp only [List.length_take]; omega)]
    · rw [@List.getElem?_eq_none _ (l.set k v) k (by simpa using Nat.le_of_not_lt hkl),
        List.getElem?_eq_none (by simp only [List.length_set, List.length_take]; omega)]
  · rw [List.getElem?_take, List.getElem?_set_ne (fun hh => hk hh.symm),
      List.getElem?_set_ne (fun hh => hk hh.symm), List.getElem?_take]

theorem pushSlots_found (j : Int) (ns rest : List Int) (hns : -1 ∉ ns) (hj : j ∈ ns) :
    ∀ base : Nat, ∃ p, p < ns.length ∧
      Table.pushSlots base (ns ++ rest) j = .found (base + p) ∧ ns.getD p 0 = j := by
  induction ns with
  | nil => cases hj
  | cons c ns ih =>
      intro base
      by_cases hc : c = j
      · exact ⟨0, by simp, by simp [Table.pushSlots, hc], by simp [hc]⟩
      · have hj' : j ∈ ns := by
          rcases List.mem_cons.mp hj with h | h
          · exact absurd h.symm hc
          · exact h
        have hcm : c ≠ -1 := fun h => hns (by simp [h])
        obtain ⟨p, hp, hscan, hval⟩ := ih (fun h => hns (List.mem_cons_of_mem _ h)) hj' (base + 1)
        refine ⟨p + 1, by simpa using hp, ?_, by simpa using hval⟩
        have harith : base + 1 + p = base + (p + 1) := by omega
        simp only [List.cons_append, Table.pushSlots, if_neg hc, if_neg hcm]
        exact harith ▸ hscan

theorem pushSlots_first_unset (j : Int) (ns rest : List Int) (hns : -1 ∉ ns) (hj : j ∉ ns)
    (hj1 : j ≠ -1) :
    ∀ base : Nat, Table.pushSlots base (ns ++ (-1) :: rest) j = .wrote (base + ns.length) := by
  induction ns with
  | nil =>
      intro base
      have : ¬((-1 : Int) = j) := fun h => hj1 h.symm
      simp [Table.pushSlots, this]
  | cons c ns ih =>
      intro base
      have hc : c ≠ j := fun h => hj (by simp [h])
      have hcm : c ≠ -1 := fun h => hns (by simp [h])
      have h1 := ih (fun h => hns (List.mem_cons_of_mem _ h)) (fun h => hj (List.mem_cons_of_mem _ h))
        (base + 1)
      have harith : base + 1 + ns.length = base + (c :: ns).length := by
        simp [List.length_cons]; omega
      simp only [List.cons_append, Table.pushSlots, if_neg hc, if_neg hcm]
      exact harith ▸ h1

theorem pushSlots_found_after (j : Int) (ns rest : List Int) (hns : -1 ∉ ns) (hj : j ∉ ns) :
    ∀ base : Nat, Table.pushSlots base (ns ++ j :: rest) j = .found (base + ns.length) := by
  induction ns with
  | nil =>
      intro base
      simp [Table.pushSlots]
  | cons c ns ih =>
      intro base
      have hc : c ≠ j := fun h => hj (by simp [h])
      have hcm : c ≠ -1 := fun h => hns (by simp [h])
      have h1 := ih (fun h => hns (List.mem_cons_of_mem _ h)) (fun h => hj (List.mem_cons_of_mem _ h))
        (base + 1)
      have harith : base + 1 + ns.length = base + (c :: ns).length := by
        simp [List.length_cons]; omega
      simp only [List.cons_append, Table.pushSlots, if_neg hc, if_neg hcm]
      exact harith ▸ h1

theorem pushSlots_overflow (j : Int) (ns : List Int) (hns : -1 ∉ ns) (hj : j ∉ ns) :
    ∀ base : Nat, Table.pushSlots base ns j = .overflow := by
  induction ns with
  | nil => intro base; rfl
  | cons c ns ih =>
      intro base
      have hc : c ≠ j := fun h => hj (by simp [h])
      have hcm : c ≠ -1 := fun h => hns (by simp [h])
      simp only [Table.pushSlots, if_neg hc, if_neg hcm]
      exact ih (fun h => hns (List.mem_cons_of_mem _ h)) (fun h => hj (List.mem_cons_of_mem _ h))
        (base + 1)

/-- C5: on a fixed-degree table — whose rows always consist of the distinct
columns pushed so far followed by the still-unset `-1` slots — `Push(i,j)`
on a valid row `i` is idempotent: if `j` already occupies a slot of row `i`
it returns that slot's global index and leaves the table untouched;
otherwise it writes `j` into the first unset slot and returns that index;
and if the row has no unset slot left (more distinct columns than the
allocated degree) the call is the fatal `mfem_error`, modelled `none`. -/
theorem c5_push_idempotent (t : Table) (i : Nat) (j : Int) (ns : List Int) (m : Nat)
    (hi : i < t.size) (hj : j ≠ -1)
    (hrow : t.row i = ns ++ List.replicate m (-1)) (hns : -1 ∉ ns) :
    (j ∈ ns → ∃ p, p < ns.length ∧ ns.getD p 0 = j ∧
        t.Push i j = some (t.rowBegin i + p, t)) ∧
    (j ∉ ns → 0 < m →
        t.Push i j = some (t.rowBegin i + ns.length,
          ⟨t.size, t.I, t.J.set (t.rowBegin i + ns.length) j⟩) ∧
        (Table.mk t.size t.I (t.J.set (t.rowBegin i + ns.length) j)).row i =
          ns ++ j :: List.replicate (m - 1) (-1)) ∧
    (j ∉ ns → m = 0 → t.Push i j = none) ∧
    (∀ k t', t.Push i j = some (k, t') → t'.Push i j = some (k, t')) := by
  have hrowlen : (t.row i).length ≤ t.rowBegin (i + 1) - t.rowBegin i := by
    rw [Table.row]
    exact le_trans (List.length_take_le _ _) (le_refl _)
  have hfound : j ∈ ns → ∃ p, p < ns.length ∧ ns.getD p 0 = j ∧
      t.Push i j = some (t.rowBegin i + p, t) := by
    intro hmem
    obtain ⟨p, hp, hps, hval⟩ := pushSlots_found j ns (List.replicate m (-1)) hns hmem
      (t.rowBegin i)
    exact ⟨p, hp, hval, by rw [Table.Push, hrow, hps]⟩
  have hwrite : j ∉ ns → 0 < m →
      t.Push i j = some (t.rowBegin i + ns.length,
        ⟨t.size, t.I, t.J.set (t.rowBegin i + ns.length) j⟩) ∧
      (Table.mk t.size t.I (t.J.set (t.rowBegin i + ns.length) j)).row i =
        ns ++ j :: List.replicate (m - 1) (-1) := by
    intro hmem hm
    have hrow' : t.row i = ns ++ (-1) :: List.replicate (m - 1) (-1) := by
      rw [hrow]
      congr 1
      conv_lhs => rw [show m = m - 1 + 1 from by omega]
      rw [List.replicate_succ]
    constructor
    · rw [Table.Push, hrow', pushSlots_first_unset j ns _ hns hmem hj]
    · have hlen : (t.row i).length = ns.length + m := by
        rw [hrow, List.length_append, List.length_replicate]
      have hlt : ns.length < t.rowBegin (i + 1) - t.rowBegin i := by
        have := hrowlen; omega
      show ((t.J.set (t.rowBegin i + ns.length) j).drop (t.rowBegin i)).take
          (t.rowBegin (i + 1) - t.rowBegin i) = ns ++ j :: List.replicate (m - 1) (-1)
      rw [List.drop_set, if_neg (by omega), Nat.add_sub_cancel_left,
        take_set_of_lt _ _ _ _ hlt]
      have : (t.J.drop (t.rowBegin i)).take (t.rowBegin (i + 1) - t.rowBegin i) = t.row i := rfl
      rw [this, hrow', List.set_append, if_neg (by omega), Nat.sub_self]
      rfl
  have hover : j ∉ ns → m = 0 → t.Push i j = none := by
    intro hmem hm
    have hrow' : t.row i = ns := by rw [hrow, hm]; simp
    rw [Table.Push, hrow', pushSlots_overflow j ns hns hmem]
  refine ⟨hfound, hwrite, hover, ?_⟩
  intro k t' hsome
  by_cases hmem : j ∈ ns
  · obtain ⟨p, hp, hval, heq⟩ := hfound hmem
    rw [heq] at hsome
    obtain ⟨hk, ht⟩ := Prod.mk.injEq .. ▸ Option.some.inj hsome
    rw [← ht, ← hk, heq, ht]
  · cases Nat.eq_zero_or_pos m with
    | inl hm => rw [hover hmem hm] at hsome; cases hsome
    | inr hm =>
        obtain ⟨heq, hrow'⟩ := hwrite hmem hm
        rw [heq] at hsome
        obtain ⟨hk, ht⟩ := Prod.mk.injEq .. ▸ Option.some.inj hsome
        subst hk
        have hbegin : t'.rowBegin i = t.rowBegin i := by rw [← ht]; rfl
        have hpush : t'.Push i j = some (t.rowBegin i + ns.length, t') := by
          rw [Table.Push, hbegin, ← ht, hrow',
            pushSlots_found_after j ns _ hns hmem (t.rowBegin i)]
        exact hpush

theorem c5_push_idempotent_witness :
    (Table.fixedDegree 2 2).Push 0 5 = some (0, ⟨2, [0, 2, 4], [5, -1, -1, -1]⟩) ∧
    Table.Push ⟨2, [0, 2, 4], [5, 6, -1, -1]⟩ 0 7 = none := by
  constructor
  · have h := ((c5_push_idempotent (Table.fixedDegree 2 2) 0 5 [] 2 (by decide) (by decide)
      (by decide) (by decide)).2.1 (by decide) (by decide)).1
    exact h
  · exact (c5_push_idempotent ⟨2, [0, 2, 4], [5, 6, -1, -1]⟩ 0 7 [5, 6] 0 (by decide) (by decide)
      (by decide) (by decide)).2.2.1 (by decide) (by decide)

/-! CSR structure lemmas: a well-formed table's `J` is the concatenation of
its rows, and `Table.ofRows` inverts that decomposition. -/

theorem rows_flatten_drop (t : Table) (hwf : t.WF) :
    ∀ n k, k + n = t.size → ((List.range' k n).map t.row).flatten = t.J.drop (t.rowBegin k) := by
  obtain ⟨hlen, hfirst, hmono, hlast⟩ := hwf
  intro n
  induction n with
  | zero =>
      intro k hk
      rw [Nat.add_zero] at hk
      subst hk
      rw [hlast, List.drop_length]
      rfl
  | succ n ih =>
      intro k hk
      have hik := ih (k + 1) (by omega)
      have hm : t.rowBegin k ≤ t.rowBegin (k + 1) := hmono k (by omega)
      rw [List.range'_succ, List.map_cons, List.flatten_cons, hik]
      have hdecomp : t.J.drop (t.rowBegin k) =
          (t.J.drop (t.rowBegin k)).take (t.rowBegin (k + 1) - t.rowBegin k) ++
          (t.J.drop (t.rowBegin k)).drop (t.rowBegin (k + 1) - t.rowBegin k) :=
        (List.take_append_drop _ _).symm
      rw [List.drop_drop, Nat.add_sub_cancel' hm] at hdecomp
      exact hdecomp.symm

theorem rows_flatten (t : Table) (hwf : t.WF) :
    ((List.range t.size).map t.row).flatten = t.J := by
  have h := rows_flatten_drop t hwf t.size 0 (by omega)
  rw [← List.range_eq_range'] at h
  rw [h, hwf.2.1, List.drop_zero]

theorem ofRows_rowBegin (rs : List (List Int)) (i : Nat) (hi : i ≤ rs.length) :
    (Table.ofRows rs).rowBegin i = ((rs.take i).map List.length).sum := by
  rw [Table.ofRows, Table.rowBegin]
  rcases Nat.lt_or_ge i rs.length with h | h
  · rw [List.getD_append _ _ _ _ (by simpa using h),
      List.getD_eq_getElem _ _ (by simpa using h)]
    simp only [List.getElem_map, List.getElem_range]
  · have hil : i = rs.length := le_antisymm hi h
    subst hil
    rw [List.getD_append_right _ _ _ _ (by simp), List.length_map, List.length_range,
      Nat.sub_self]
    simp [List.take_length]

theorem flatten_drop_take_sum {α : Type} (rs : List (List α)) :
    ∀ i : Nat, rs.flatten.drop (((rs.take i).map List.length).sum) = (rs.drop i).flatten := by
  induction rs with
  | nil => intro i; simp
  | cons r rs ih =>
      intro i
      cases i with
      | zero => simp
      | succ i =>
          simp only [List.take_succ_cons, List.map_cons, List.sum_cons, List.flatten_cons,
            List.drop_succ_cons]
          rw [List.drop_append]
          exact ih i

theorem ofRows_row (rs : List (List Int)) (i : Nat) :
    (Table.ofRows rs).row i = rs.getD i [] := by
  rcases Nat.lt_or_ge i rs.length with hi | hi
  · rw [Table.row, ofRows_rowBegin _ _ (le_of_lt hi), ofRows_rowBegin _ _ (by omega)]
    have hJ : (Table.ofRows rs).J = rs.flatten := rfl
    have hsum : ((rs.take (i + 1)).map List.length).sum =
        ((rs.take i).map List.length).sum + rs[i].length := by
      have h1 := List.sum_take_succ (rs.map List.length) i (by simpa using hi)
      simpa using h1
    rw [hJ, flatten_drop_take_sum rs i, hsum, Nat.add_sub_cancel_left,
      List.drop_eq_getElem_cons hi, List.flatten_cons, List.take_left,
      List.getD_eq_getElem _ _ hi]
  · have hb : (Table.ofRows rs).rowBegin (i + 1) = 0 := by
      rw [Table.ofRows, Table.rowBegin]
      exact List.getD_eq_default _ _ (by simp; omega)
    rw [Table.row, hb, Nat.zero_sub, List.take_zero, List.getD_eq_default _ _ hi]

/-- C6 (amended): on a well-formed table whose rows keep unset slots only
as a trailing suffix (equivalently, whose per-row `takeWhile (≠ -1)`
prefix is the whole list of non-sentinel entries), `Finalize` compacts the
sentinels out: the final `rowStart[size]` equals the number of
non-sentinel entries, each row becomes exactly its original non-sentinel
entries in their original relative order, no sentinel survives, and when
no sentinel was present `Finalize` is the identity.  (Without the suffix
restriction the per-row copy loop of the source, which `break`s at the
first `-1`, drops entries — see the counterexample.) -/
theorem c6_finalize_compacts (t : Table) (junk : Int) (hwf : t.WF)
    (hsfx : ∀ i, i < t.size → (t.row i).takeWhile (· ≠ -1) = (t.row i).filter (· ≠ -1)) :
    ((t.Finalize junk).rowBegin (t.Finalize junk).size = (t.J.filter (· ≠ -1)).length) ∧
    (∀ i, i < t.size → (t.Finalize junk).row i = (t.row i).filter (· ≠ -1)) ∧
    (∀ c, c ∈ (t.Finalize junk).J → c ≠ -1) ∧
    ((-1) ∉ t.J → t.Finalize junk = t) := by
  have hlast : t.rowBegin t.size = t.J.length := hwf.2.2.2
  have htake : t.J.take (t.rowBegin t.size) = t.J := by rw [hlast, List.take_length]
  have hrowmem : ∀ i, ∀ c ∈ t.row i, c ∈ t.J := by
    intro i c hc
    exact ((List.take_sublist _ _).trans (List.drop_sublist _ _)).mem hc
  by_cases hs : ((t.J.take (t.rowBegin t.size)).filter (· ≠ -1)).length = t.rowBegin t.size
  · -- no sentinel anywhere: Finalize is the identity
    have hfe : t.Finalize junk = t := by
      unfold Table.Finalize
      dsimp only
      rw [if_pos hs]
    have hflen : (t.J.filter (· ≠ -1)).length = t.J.length := by
      rw [htake] at hs; rw [hs, hlast]
    have hfilter : t.J.filter (· ≠ -1) = t.J :=
      (List.filter_sublist _).eq_of_length hflen
    have hall : ∀ c ∈ t.J, c ≠ -1 := by
      intro c hc
      have : c ∈ t.J.filter (· ≠ -1) := hfilter.symm ▸ hc
      exact of_decide_eq_true (List.mem_filter.mp this).2
    refine ⟨?_, ?_, ?_, fun _ => hfe⟩
    · rw [hfe, hlast, hfilter]
    · intro i hi
      rw [hfe]
      exact (List.filter_eq_self.mpr
        (fun a ha => decide_eq_true (hall a (hrowmem i a ha)))).symm
    · intro c hc
      exact hall c (hfe ▸ hc)
  · -- sentinels present: the compaction runs
    have hfr : (List.range t.size).map (fun i => (t.row i).takeWhile (· ≠ -1)) =
        (List.range t.size).map (fun i => (t.row i).filter (· ≠ -1)) := by
      apply List.map_congr_left
      intro i hi
      exact hsfx i (List.mem_range.mp hi)
    have hJfilter : t.J.filter (· ≠ -1) =
        ((List.range t.size).map (fun i => (t.row i).filter (· ≠ -1))).flatten := by
      conv_lhs => rw [← rows_flatten t hwf]
      rw [List.filter_flatten, List.map_map]
      rfl
    have hsum_n : ((t.J.take (t.rowBegin t.size)).filter (· ≠ -1)).length =
        ((List.range t.size).map (fun i => (t.row i).takeWhile (· ≠ -1))).flatten.length := by
      rw [htake, hJfilter, hfr]
    have hfe : t.Finalize junk =
        Table.ofRows ((List.range t.size).map (fun i => (t.row i).takeWhile (· ≠ -1))) := by
      unfold Table.Finalize Table.ofRows
      dsimp only
      rw [if_neg hs]
      have hlenfr :
          ((List.range t.size).map (fun i => (t.row i).takeWhile (· ≠ -1))).length = t.size := by
        simp
      congr 1
      · rw [hlenfr]
      · rw [hlenfr, hsum_n, List.length_flatten]
      · rw [hsum_n, Nat.sub_self, List.replicate_zero, List.append_nil]
    refine ⟨?_, ?_, ?_, ?_⟩
    · rw [hfe]
      have hsz : (Table.ofRows ((List.range t.size).map
          (fun i => (t.row i).takeWhile (· ≠ -1)))).size =
          ((List.range t.size).map (fun i => (t.row i).takeWhile (· ≠ -1))).length := rfl
      rw [hsz, ofRows_rowBegin _ _ (le_refl _), List.take_length, ← List.length_flatten,
        ← hsum_n, htake]
    · intro i hi
      rw [hfe, ofRows_row, List.getD_eq_getElem _ _ (by simpa using hi)]
      simp only [List.getElem_map, List.getElem_range]
      exact hsfx i hi
    · intro c hc
      rw [hfe] at hc
      have hc' : c ∈ ((List.range t.size).map (fun i => (t.row i).filter (· ≠ -1))).flatten := by
        have : (Table.ofRows ((List.range t.size).map
            (fun i => (t.row i).takeWhile (· ≠ -1)))).J =
            ((List.range t.size).map (fun i => (t.row i).takeWhile (· ≠ -1))).flatten := rfl
        rw [this, hfr] at hc
        exact hc
      obtain ⟨l, hl, hcl⟩ := List.mem_flatten.mp hc'
      obtain ⟨i, _, hli⟩ := List.mem_map.mp hl
      rw [← hli] at hcl
      exact of_decide_eq_true (List.mem_filter.mp hcl).2
    · intro hnot
      exfalso
      apply hs
      have hall2 : ∀ a ∈ t.J, a ≠ -1 := by
        intro a ha h
        rw [h] at ha
        exact hnot ha
      rw [htake, List.filter_eq_self.mpr (fun a ha => decide_eq_true (hall2 a ha)), hlast]

/-- C6 counterexample: the claim quantifies over every table with unset
sentinels, but on the single-row table `[5, -1, 7]` the compaction loop of
`Finalize` stops at the sentinel and drops the trailing entry 7 (the row
becomes `[5, junk]`, here with `junk = 0`, instead of the claimed `[5, 7]`),
so the finalized rows do not contain the original non-sentinel entries. -/
theorem c6_finalize_counterexample :
    (Table.Finalize ⟨1, [0, 3], [5, -1, 7]⟩ 0).row 0 = [5, 0] ∧
    (7 : Int) ∉ (Table.Finalize ⟨1, [0, 3], [5, -1, 7]⟩ 0).J ∧
    ((⟨1, [0, 3], [5, -1, 7]⟩ : Table).row 0).filter (· ≠ -1) = [5, 7] := by decide

theorem c6_finalize_compacts_witness :
    (Table.Finalize ⟨2, [0, 2, 4], [5, -1, 7, -1]⟩ 123).row 0 = [5] := by
  have h := (c6_finalize_compacts ⟨2, [0, 2, 4], [5, -1, 7, -1]⟩ 123 (by decide)
    (by decide)).2.1 0 (by decide)
  exact h.trans (by decide)

/-! Generic machinery for the refinement loops: a fold over `range n` whose
step `k` turns the state `g ++ (done ++ junk)` into
`g ++ ((done ++ children k) ++ junk)` fills the whole junk area with the
children of every parent, in parent order. -/

theorem set_at_append {α : Type} (B R : List α) (d : Nat) (v : α) (p : Nat)
    (hp : p = B.length + d) :
    (B ++ R).set p v = B ++ R.set d v := by
  subst hp
  rw [List.set_append, if_neg (by omega), Nat.add_sub_cancel_left]

theorem flatMap_const_length {α : Type} (f : α → List Int) (c : Nat)
    (hf : ∀ x, (f x).length = c) : ∀ l : List α, (l.flatMap f).length = c * l.length := by
  intro l
  induction l with
  | nil => simp
  | cons a l ih => simp [List.flatMap_cons, ih, hf a]; ring

theorem refineChildren_aux (c : Nat) (f : Int → List Int) (hf : ∀ x, (f x).length = c)
    (step : List Int → Nat → List Int) (g : List Int)
    (hstep : ∀ k, k < g.length → ∀ A : List Int, A.length = c * k →
      step (g ++ (A ++ List.replicate (c * (g.length - k)) 0)) k =
        g ++ ((A ++ f (g.getD k 0)) ++ List.replicate (c * (g.length - (k + 1))) 0)) :
    ∀ k, k ≤ g.length → (List.range k).foldl step (g ++ List.replicate (c * g.length) 0) =
      g ++ ((g.take k).flatMap f ++ List.replicate (c * (g.length - k)) 0) := by
  intro k
  induction k with
  | zero => intro _; simp
  | succ k ih =>
      intro hk1
      have hk : k < g.length := by omega
      rw [List.range_succ, List.foldl_append, List.foldl_cons, List.foldl_nil, ih (by omega),
        hstep k hk _ (flatMap_const_length f c hf _ |>.trans
          (by rw [List.length_take, Nat.min_eq_left (le_of_lt hk)]))]
      congr 2
      rw [List.take_succ, List.getElem?_eq_getElem hk, List.flatMap_append,
        List.getD_eq_getElem _ _ hk]
      simp [List.flatMap_cons]

theorem quadRefineElementGroup_spec (ne : Int) (g : List Int) :
    quadRefineElementGroup ne g =
      g ++ g.flatMap (fun e => [ne + 3 * e, ne + 3 * e + 1, ne + 3 * e + 2]) := by
  have h := refineChildren_aux 3 (fun e => [ne + 3 * e, ne + 3 * e + 1, ne + 3 * e + 2])
    (fun _ => rfl)
    (fun acc i =>
      let e := acc.getD i 0
      let j := ne + 3 * e
      ((acc.set (g.length + 3 * i) j).set (g.length + 3 * i + 1) (j + 1)).set
        (g.length + 3 * i + 2) (j + 2)) g
    (by
      intro k hk A hA
      dsimp only
      have hread : (g ++ (A ++ List.replicate (3 * (g.length - k)) 0)).getD k 0 = g.getD k 0 :=
        List.getD_append _ _ _ _ hk
      rw [hread]
      have hR : List.replicate (3 * (g.length - k)) (0 : Int) =
          0 :: 0 :: 0 :: List.replicate (3 * (g.length - (k + 1))) 0 := by
        rw [show 3 * (g.length - k) = 3 * (g.length - (k + 1)) + 3 from by omega]
        rfl
      rw [hR, ← List.append_assoc,
        set_at_append (g ++ A) _ 0 _ _ (by simp [hA]),
        set_at_append (g ++ A) _ 1 _ _ (by simp [hA]),
        set_at_append (g ++ A) _ 2 _ _ (by simp [hA])]
      have hsets : ∀ R' : List Int,
          (((0 :: 0 :: 0 :: R').set 0 (ne + 3 * g.getD k 0)).set 1
            (ne + 3 * g.getD k 0 + 1)).set 2 (ne + 3 * g.getD k 0 + 2) =
          (ne + 3 * g.getD k 0) :: (ne + 3 * g.getD k 0 + 1) ::
            (ne + 3 * g.getD k 0 + 2) :: R' := fun _ => rfl
      rw [hsets]
      simp [List.append_assoc])
    g.length (le_refl _)
  unfold quadRefineElementGroup
  rw [h]
  simp

theorem hexRefineElementGroup_spec (ne : Int) (g : List Int) :
    hexRefineElementGroup ne g =
      g ++ g.flatMap (fun e => [ne + 7 * e, ne + 7 * e + 1, ne + 7 * e + 2, ne + 7 * e + 3,
        ne + 7 * e + 4, ne + 7 * e + 5, ne + 7 * e + 6]) := by
  have h := refineChildren_aux 7 (fun e => [ne + 7 * e, ne + 7 * e + 1, ne + 7 * e + 2,
      ne + 7 * e + 3, ne + 7 * e + 4, ne + 7 * e + 5, ne + 7 * e + 6])
    (fun _ => rfl)
    (fun acc i =>
      let e := acc.getD i 0
      let j := ne + 7 * e
      ((((((acc.set (g.length + 7 * i) j).set (g.length + 7 * i + 1) (j + 1)).set
        (g.length + 7 * i + 2) (j + 2)).set (g.length + 7 * i + 3) (j + 3)).set
        (g.length + 7 * i + 4) (j + 4)).set (g.length + 7 * i + 5) (j + 5)).set
        (g.length + 7 * i + 6) (j + 6)) g
    (by
      intro k hk A hA
      dsimp only
      have hread : (g ++ (A ++ List.replicate (7 * (g.length - k)) 0)).getD k 0 = g.getD k 0 :=
        List.getD_append _ _ _ _ hk
      rw [hread]
      have hR : List.replicate (7 * (g.length - k)) (0 : Int) =
          0 :: 0 :: 0 :: 0 :: 0 :: 0 :: 0 :: List.replicate (7 * (g.length - (k + 1))) 0 := by
        rw [show 7 * (g.length - k) = 7 * (g.length - (k + 1)) + 7 from by omega]
        rfl
      rw [hR, ← List.append_assoc,
        set_at_append (g ++ A) _ 0 _ _ (by simp [hA]),
        set_at_append (g ++ A) _ 1 _ _ (by simp [hA]),
        set_at_append (g ++ A) _ 2 _ _ (by simp [hA]),
        set_at_append (g ++ A) _ 3 _ _ (by simp [hA]),
        set_at_append (g ++ A) _ 4 _ _ (by simp [hA]),
        set_at_append (g ++ A) _ 5 _ _ (by simp [hA]),
        set_at_append (g ++ A) _ 6 _ _ (by simp [hA])]
      have hsets : ∀ R' : List Int, ∀ j : Int,
          ((((((0 :: 0 :: 0 :: 0 :: 0 :: 0 :: 0 :: R').set 0 j).set 1 (j + 1)).set 2
            (j + 2)).set 3 (j + 3) |>.set 4 (j + 4) |>.set 5 (j + 5)).set 6 (j + 6)) =
          j :: (j + 1) :: (j + 2) :: (j + 3) :: (j + 4) :: (j + 5) :: (j + 6) :: R' :=
        fun _ _ => rfl
      rw [hsets]
      simp [List.append_assoc])
    g.length (le_refl _)
  unfold hexRefineElementGroup
  rw [h]
  simp

/-- C3: for every ELEMENT group, the quad-refinement loop quadruples the
group, keeps each original entry `e` in its slot, and appends the children
`NumOfElements_ + 3e + {0,1,2}` (in parent order); the hex-refinement loop
makes the group 8 times larger, keeps `e` in its slot, and appends
`NumOfElements_ + 7e + {0..6}`; in particular the group `[5]` with
`NumOfElements_ = 10` becomes `[5, 25, 26, 27]` under quad refinement and
`[5, 45, 46, 47, 48, 49, 50, 51]` under hex refinement. -/
theorem c3_element_refinement (ne : Int) (g : List Int) :
    (quadRefineElementGroup ne g =
      g ++ g.flatMap (fun e => [ne + 3 * e, ne + 3 * e + 1, ne + 3 * e + 2])) ∧
    (quadRefineElementGroup ne g).length = 4 * g.length ∧
    (hexRefineElementGroup ne g =
      g ++ g.flatMap (fun e => [ne + 7 * e, ne + 7 * e + 1, ne + 7 * e + 2, ne + 7 * e + 3,
        ne + 7 * e + 4, ne + 7 * e + 5, ne + 7 * e + 6])) ∧
    (hexRefineElementGroup ne g).length = 8 * g.length ∧
    quadRefineElementGroup 10 [5] = [5, 25, 26, 27] ∧
    hexRefineElementGroup 10 [5] = [5, 45, 46, 47, 48, 49, 50, 51] := by
  refine ⟨quadRefineElementGroup_spec ne g, ?_, hexRefineElementGroup_spec ne g, ?_,
    by decide, by decide⟩
  · rw [quadRefineElementGroup_spec, List.length_append,
      flatMap_const_length (fun e => [ne + 3 * e, ne + 3 * e + 1, ne + 3 * e + 2]) 3
        (fun _ => rfl) g]
    omega
  · rw [hexRefineElementGroup_spec, List.length_append,
      flatMap_const_length (fun e => [ne + 7 * e, ne + 7 * e + 1, ne + 7 * e + 2, ne + 7 * e + 3,
        ne + 7 * e + 4, ne + 7 * e + 5, ne + 7 * e + 6]) 7 (fun _ => rfl) g]
    omega

theorem edgeStep (v1 v2 e0 : Int) (A B' C R' : List Int) (k n : Nat)
    (hA : A.length = k) (hB' : B'.length = n - (k + 1)) (hC : C.length = k) (hkn : k < n) :
    ((A ++ ((e0 :: B') ++ (C ++ (0 :: R')))).set k v1).set (k + n) v2 =
      (A ++ [v1]) ++ (B' ++ ((C ++ [v2]) ++ R')) := by
  rw [set_at_append A _ 0 v1 k (by omega)]
  have hset0 : ((e0 :: B') ++ (C ++ (0 :: R'))).set 0 v1 = (v1 :: B') ++ (C ++ (0 :: R')) := by
    rw [List.set_append, if_pos (by simp)]
    rfl
  rw [hset0]
  rw [show A ++ ((v1 :: B') ++ (C ++ (0 :: R'))) = ((A ++ (v1 :: B')) ++ C) ++ (0 :: R')
    from by simp [List.append_assoc]]
  rw [set_at_append ((A ++ (v1 :: B')) ++ C) _ 0 v2 (k + n)
    (by simp only [List.length_append, List.length_cons, hA, hB', hC]; omega)]
  rw [show (((0 :: R') : List Int).set 0 v2) = v2 :: R' from rfl]
  simp [List.append_assoc]

theorem refineEdgeGroup_spec (vv : Int → Int → Int) (ev : Int → Int × Int) (oedge : Int)
    (g : List Int) :
    refineEdgeGroup vv ev oedge g =
      (g.map fun e => vv (ev e).1 (oedge + e)) ++ (g.map fun e => vv (ev e).2 (oedge + e)) := by
  have main : ∀ k, k ≤ g.length →
      (List.range k).foldl
        (fun acc i =>
          let old_edge := acc.getD i 0
          let v := ev old_edge
          (acc.set i (vv v.1 (oedge + old_edge))).set (i + g.length)
            (vv v.2 (oedge + old_edge)))
        (g ++ List.replicate g.length 0) =
      ((g.take k).map fun e => vv (ev e).1 (oedge + e)) ++
        (g.drop k ++ (((g.take k).map fun e => vv (ev e).2 (oedge + e)) ++
          List.replicate (g.length - k) 0)) := by
    intro k
    induction k with
    | zero => intro _; simp
    | succ k ih =>
        intro hk1
        have hk : k < g.length := by omega
        rw [List.range_succ, List.foldl_append, List.foldl_cons, List.foldl_nil, ih (by omega)]
        dsimp only
        have hBcons : g.drop k = g.getD k 0 :: g.drop (k + 1) := by
          rw [List.drop_eq_getElem_cons hk, List.getD_eq_getElem _ _ hk]
        have hRcons : List.replicate (g.length - k) (0 : Int) =
            0 :: List.replicate (g.length - (k + 1)) 0 := by
          rw [show g.length - k = (g.length - (k + 1)) + 1 from by omega]
          rfl
        rw [hBcons, hRcons]
        have hread : (((g.take k).map fun e => vv (ev e).1 (oedge + e)) ++
            ((g.getD k 0 :: g.drop (k + 1)) ++
              (((g.take k).map fun e => vv (ev e).2 (oedge + e)) ++
                (0 :: List.replicate (g.length - (k + 1)) 0)))).getD k 0 = g.getD k 0 := by
          rw [List.getD_append_right _ _ _ _ (by simp [Nat.min_eq_left (le_of_lt hk)])]
          simp [Nat.min_eq_left (le_of_lt hk)]
        rw [hread]
        have hstep := edgeStep (vv (ev (g.getD k 0)).1 (oedge + g.getD k 0))
          (vv (ev (g.getD k 0)).2 (oedge + g.getD k 0)) (g.getD k 0)
          ((g.take k).map fun e => vv (ev e).1 (oedge + e)) (g.drop (k + 1))
          ((g.take k).map fun e => vv (ev e).2 (oedge + e))
          (List.replicate (g.length - (k + 1)) 0) k g.length
          (by simp [Nat.min_eq_left (le_of_lt hk)]) (by simp)
          (by simp [Nat.min_eq_left (le_of_lt hk)]) hk
        rw [hstep]
        have h1 : (g.take (k + 1)).map (fun e => vv (ev e).1 (oedge + e)) =
            ((g.take k).map fun e => vv (ev e).1 (oedge + e)) ++
              [vv (ev (g.getD k 0)).1 (oedge + g.getD k 0)] := by
          rw [List.take_succ, List.getElem?_eq_getElem hk, List.getD_eq_getElem _ _ hk]
          simp only [Option.toList_some, List.map_append, List.map_cons, List.map_nil]
        have h2 : (g.take (k + 1)).map (fun e => vv (ev e).2 (oedge + e)) =
            ((g.take k).map fun e => vv (ev e).2 (oedge + e)) ++
              [vv (ev (g.getD k 0)).2 (oedge + g.getD k 0)] := by
          rw [List.take_succ, List.getElem?_eq_getElem hk, List.getD_eq_getElem _ _ hk]
          simp only [Option.toList_some, List.map_append, List.map_cons, List.map_nil]
        rw [h1, h2]
  unfold refineEdgeGroup
  rw [main g.length (le_refl _)]
  simp

/-- C4: for every EDGE group of size `n`, one refinement pass (the loop is
identical under quad and hex refinement) doubles the group to `2n`,
replacing the edge `e` stored at position `i` by the vertex-pair-table
index of `(v0, oldVertexCount + e)` at position `i` and the index of
`(v1, oldVertexCount + e)` at position `i + n`, where `(v0, v1)` are `e`'s
endpoints in the edge-vertex table and `oldVertexCount` the pre-refinement
`NumOfVertices_`; the first half keeps the original order.  The last
conjunct is the spec's concrete scenario: a group holding the single edge
0 with endpoints `(0, 1)` and `NumOfVertices_ = 4` becomes
`[pair(0, 4), pair(1, 4)]`. -/
theorem c4_edge_refinement (vv : Int → Int → Int) (ev : Int → Int × Int) (oedge : Int)
    (g : List Int) :
    (refineEdgeGroup vv ev oedge g =
      (g.map fun e => vv (ev e).1 (oedge + e)) ++ (g.map fun e => vv (ev e).2 (oedge + e))) ∧
    (refineEdgeGroup vv ev oedge g).length = 2 * g.length ∧
    (∀ i, i < g.length →
      (refineEdgeGroup vv ev oedge g).getD i 0 =
        vv (ev (g.getD i 0)).1 (oedge + g.getD i 0) ∧
      (refineEdgeGroup vv ev oedge g).getD (i + g.length) 0 =
        vv (ev (g.getD i 0)).2 (oedge + g.getD i 0)) ∧
    refineEdgeGroup vv (fun _ => (0, 1)) 4 [0] = [vv 0 4, vv 1 4] := by
  refine ⟨refineEdgeGroup_spec vv ev oedge g, ?_, ?_, ?_⟩
  · rw [refineEdgeGroup_spec, List.length_append, List.length_map, List.length_map]
    omega
  · intro i hi
    rw [refineEdgeGroup_spec]
    constructor
    · rw [List.getD_append _ _ _ _ (by simpa using hi),
        List.getD_eq_getElem _ _ (by simpa using hi), List.getElem_map,
        List.getD_eq_getElem _ _ hi]
    · rw [List.getD_append_right _ _ _ _ (by simp),
        show i + g.length - (g.map fun e => vv (ev e).1 (oedge + e)).length = i from by simp,
        List.getD_eq_getElem _ _ (by simpa using hi), List.getElem_map,
        List.getD_eq_getElem _ _ hi]
  · rw [refineEdgeGroup_spec]
    simp

theorem c4_edge_refinement_witness :
    refineEdgeGroup (fun a b => 10 * a + b) (fun _ => (0, 1)) 4 [0] = [4, 14] ∧
    (refineEdgeGroup (fun a b => 10 * a + b) (fun _ => (0, 1)) 4 [0]).getD 1 0 = 14 := by
  constructor
  · exact ((c4_edge_refinement (fun a b => 10 * a + b) (fun _ => (0, 1)) 4
      [0]).2.2.2).trans (by decide)
  · have h := ((c4_edge_refinement (fun a b => 10 * a + b) (fun _ => (0, 1)) 4 [0]).2.2.1 0
      (by decide)).2
    exact h.trans (by decide)

/-! Lemmas for the dynamic table `DSTable`. -/

theorem getD_replicate_self {α : Type} (n r : Nat) (d : α) :
    (List.replicate n d).getD r d = d := by
  rcases Nat.lt_or_ge r n with h | h
  · rw [List.getD_eq_getElem _ _ (by simpa using h), List.getElem_replicate]
  · exact List.getD_eq_default _ _ (by simpa using h)

theorem findNode_some (chain : List (Int × Nat)) (c : Int) (i : Nat)
    (h : DSTable.findNode chain c = some i) : (c, i) ∈ chain := by
  induction chain with
  | nil => cases h
  | cons nd rest ih =>
      rw [DSTable.findNode] at h
      by_cases hc : nd.1 = c
      · rw [if_pos hc] at h
        have : nd = (c, i) := by
          obtain ⟨a, b⟩ := nd
          simp only at hc
          cases h
          rw [hc]
        exact this ▸ List.mem_cons_self _ _
      · rw [if_neg hc] at h
        exact List.mem_cons_of_mem _ (ih h)

theorem findNode_mem (chain : List (Int × Nat)) (c : Int) (i : Nat)
    (h : (c, i) ∈ chain) : ∃ j, DSTable.findNode chain c = some j := by
  induction chain with
  | nil => cases h
  | cons nd rest ih =>
      by_cases hc : nd.1 = c
      · exact ⟨nd.2, by rw [DSTable.findNode, if_pos hc]⟩
      · rcases List.mem_cons.mp h with heq | hmem
        · exact absurd (by rw [← heq]) hc
        · obtain ⟨j, hj⟩ := ih hmem
          exact ⟨j, by rw [DSTable.findNode, if_neg hc, hj]⟩

theorem init_models (n : Nat) : (DSTable.init n).Models [] := by
  refine ⟨by simp [DSTable.init], rfl, List.nodup_nil, by simp, ?_⟩
  intro r c i
  rw [show (DSTable.init n).Rows = List.replicate n [] from rfl, getD_replicate_self]
  simp

theorem Models.push_seen (t : DSTable) (D : List (Nat × Int)) (h : t.Models D)
    (r : Nat) (c : Int) (i : Nat) (hi : D[i]? = some (r, c)) :
    t.Push_ r c = (i, t) := by
  obtain ⟨hlen, hcnt, hnd, hrange, hiff⟩ := h
  have hmem : (c, i) ∈ t.Rows.getD r [] := (hiff r c i).mpr hi
  obtain ⟨j, hj⟩ := findNode_mem _ _ _ hmem
  have hji : D[j]? = some (r, c) := (hiff r c j).mp (findNode_some _ _ _ hj)
  have hilt : i < D.length := by
    by_contra hc
    rw [List.getElem?_eq_none (by omega)] at hi
    cases hi
  have hij : i = j := List.getElem?_inj hilt hnd (hi.trans hji.symm)
  rw [DSTable.Push_, hj, ← hij]

theorem Models.index_eq (t : DSTable) (D : List (Nat × Int)) (h : t.Models D)
    (r : Nat) (c : Int) (i : Nat) (hi : D[i]? = some (r, c)) (hrn : r < t.NumRows) :
    t.Index r c = (i : Int) := by
  obtain ⟨hlen, hcnt, hnd, hrange, hiff⟩ := h
  have hmem : (c, i) ∈ t.Rows.getD r [] := (hiff r c i).mpr hi
  obtain ⟨j, hj⟩ := findNode_mem _ _ _ hmem
  have hji : D[j]? = some (r, c) := (hiff r c j).mp (findNode_some _ _ _ hj)
  have hilt : i < D.length := by
    by_contra hc
    rw [List.getElem?_eq_none (by omega)] at hi
    cases hi
  have hij : i = j := List.getElem?_inj hilt hnd (hi.trans hji.symm)
  rw [DSTable.Index, if_neg (by omega), hj, ← hij]

theorem Models.push_new (t : DSTable) (D : List (Nat × Int)) (h : t.Models D)
    (r : Nat) (c : Int) (hr : r < t.NumRows) (hnew : (r, c) ∉ D) :
    t.Push_ r c = (D.length,
      ⟨t.NumRows, t.Rows.set r ((c, D.length) :: t.Rows.getD r []), D.length + 1⟩) ∧
    (DSTable.mk t.NumRows (t.Rows.set r ((c, D.length) :: t.Rows.getD r []))
      (D.length + 1)).Models (D ++ [(r, c)]) := by
  obtain ⟨hlen, hcnt, hnd, hrange, hiff⟩ := h
  have hfn : DSTable.findNode (t.Rows.getD r []) c = none := by
    cases hcase : DSTable.findNode (t.Rows.getD r []) c with
    | none => rfl
    | some j =>
        exfalso
        have hj : D[j]? = some (r, c) := (hiff r c j).mp (findNode_some _ _ _ hcase)
        obtain ⟨hjl, heq⟩ := List.getElem?_eq_some.mp hj
        exact hnew (heq ▸ List.getElem_mem hjl)
  constructor
  · rw [DSTable.Push_, hfn, hcnt]
  · refine ⟨by simp [hlen], by simp, ?_, ?_, ?_⟩
    · rw [List.nodup_append]
      refine ⟨hnd, List.nodup_singleton _, ?_⟩
      intro a ha hb
      rw [List.mem_singleton] at hb
      subst hb
      exact hnew ha
    · intro p hp
      rcases List.mem_append.mp hp with hp | hp
      · exact hrange p hp
      · rw [List.mem_singleton] at hp
        subst hp
        exact hr
    · have hproj : (DSTable.mk t.NumRows (t.Rows.set r ((c, D.length) :: t.Rows.getD r []))
          (D.length + 1)).Rows = t.Rows.set r ((c, D.length) :: t.Rows.getD r []) := rfl
      intro r' c' i
      rw [hproj]
      by_cases hrr : r' = r
      · subst hrr
        rw [getD_set_eq _ _ _ _ (by rw [hlen]; exact hr)]
        constructor
        · intro hmem
          rcases List.mem_cons.mp hmem with heq | hmem'
          · injection heq with h1 h2
            rw [h1, h2]
            exact List.getElem?_concat_length D (r', c)
          · have hD := (hiff r' c' i).mp hmem'
            have hilt : i < D.length := by
              by_contra hcc
              rw [List.getElem?_eq_none (by omega)] at hD
              cases hD
            rw [List.getElem?_append, if_pos hilt]
            exact hD
        · intro hD
          rcases Nat.lt_trichotomy i D.length with hlt | heq | hgt
          · rw [List.getElem?_append, if_pos hlt] at hD
            exact List.mem_cons_of_mem _ ((hiff r' c' i).mpr hD)
          · subst heq
            rw [List.getElem?_concat_length] at hD
            injection hD with hD
            injection hD with h1 h2
            rw [← h2]
            exact List.mem_cons_self _ _
          · rw [List.getElem?_eq_none (by simp; omega)] at hD
            cases hD
      · rw [getD_set_neq _ _ _ _ _ (fun hh : r = r' => hrr hh.symm)]
        constructor
        · intro hmem
          have hD := (hiff r' c' i).mp hmem
          have hilt : i < D.length := by
            by_contra hcc
            rw [List.getElem?_eq_none (by omega)] at hD
            cases hD
          rw [List.getElem?_append, if_pos hilt]
          exact hD
        · intro hD
          rcases Nat.lt_trichotomy i D.length with hlt | heq | hgt
          · rw [List.getElem?_append, if_pos hlt] at hD
            exact (hiff r' c' i).mpr hD
          · subst heq
            rw [List.getElem?_concat_length] at hD
            injection hD with hD
            injection hD with h1 h2
            exact absurd h1.symm hrr
          · rw [List.getElem?_eq_none (by simp; omega)] at hD
            cases hD

theorem Push_NumRows (t : DSTable) (r : Nat) (c : Int) :
    ((t.Push_ r c).2).NumRows = t.NumRows := by
  rw [DSTable.Push_]
  cases hfn : DSTable.findNode (t.Rows.getD r []) c with
  | some idx => rfl
  | none => rfl

theorem pushAll_models : ∀ (L : List (Nat × Int)) (t : DSTable) (D : List (Nat × Int)),
    t.Models D → (∀ p ∈ L, p.1 < t.NumRows) →
    (t.pushAll L).Models
      (L.foldl (fun acc p => if p ∈ acc then acc else acc ++ [p]) D) := by
  intro L
  induction L with
  | nil => intro t D h _; exact h
  | cons p L ih =>
      intro t D h hL
      show (((t.Push_ p.1 p.2).2).pushAll L).Models
        (L.foldl (fun acc p => if p ∈ acc then acc else acc ++ [p])
          (if p ∈ D then D else D ++ [p]))
      by_cases hp : p ∈ D
      · obtain ⟨i, hi⟩ := List.getElem?_of_mem hp
        have hpush := Models.push_seen t D h p.1 p.2 i hi
        have h2 : (t.Push_ p.1 p.2).2 = t := by rw [hpush]
        rw [h2, if_pos hp]
        exact ih t D h (fun q hq => hL q (List.mem_cons_of_mem _ hq))
      · obtain ⟨hpush, hmodels⟩ := Models.push_new t D h p.1 p.2
          (hL p (List.mem_cons_self _ _)) hp
        have h2 : (t.Push_ p.1 p.2).2 = DSTable.mk t.NumRows
            (t.Rows.set p.1 ((p.2, D.length) :: t.Rows.getD p.1 [])) (D.length + 1) := by
          rw [hpush]
        rw [h2, if_neg hp]
        exact ih _ _ hmodels (fun q hq => hL q (List.mem_cons_of_mem _ hq))

theorem foldl_firstSeen_mem (L : List (Nat × Int)) :
    ∀ (acc : List (Nat × Int)) (x : Nat × Int),
      x ∈ L.foldl (fun acc p => if p ∈ acc then acc else acc ++ [p]) acc ↔
        x ∈ acc ∨ x ∈ L := by
  induction L with
  | nil => simp
  | cons p L ih =>
      intro acc x
      rw [List.foldl_cons]
      by_cases hp : p ∈ acc
      · rw [if_pos hp, ih, List.mem_cons]
        constructor
        · rintro (h | h)
          · exact Or.inl h
          · exact Or.inr (Or.inr h)
        · rintro (h | h | h)
          · exact Or.inl h
          · exact Or.inl (h ▸ hp)
          · exact Or.inr h
      · rw [if_neg hp, ih, List.mem_append, List.mem_singleton, List.mem_cons]
        tauto

theorem firstSeen_mem (L : List (Nat × Int)) (x : Nat × Int) :
    x ∈ firstSeen L ↔ x ∈ L := by
  rw [firstSeen, foldl_firstSeen_mem]
  simp

theorem pushAll_NumRows (L : List (Nat × Int)) :
    ∀ t : DSTable, (t.pushAll L).NumRows = t.NumRows := by
  induction L with
  | nil => intro t; rfl
  | cons p L ih =>
      intro t
      show (((t.Push_ p.1 p.2).2).pushAll L).NumRows = t.NumRows
      rw [ih, Push_NumRows]

/-- C7: for a `DSTable` filled from empty by any in-range sequence of
`Push_` calls `L`, pushing a pair again returns the same index and leaves
the table unchanged (so N repeats all return the same index);
`NumEntries` equals the number of distinct pairs pushed, is unchanged by a
push of a seen pair and grows by exactly 1 on a new pair; and the assigned
indices are exactly the dense range `[0, NumEntries)`, in first-seen
discovery order (pair number `i` of `firstSeen L` has index `i`). -/
theorem c7_dstable_push (n : Nat) (L : List (Nat × Int)) (r : Nat) (c : Int)
    (hL : ∀ p ∈ L, p.1 < n) (hr : r < n) :
    ((((DSTable.init n).pushAll L).Push_ r c).2.Push_ r c =
      ((((DSTable.init n).pushAll L).Push_ r c).1,
       (((DSTable.init n).pushAll L).Push_ r c).2)) ∧
    ((DSTable.init n).pushAll L).NumEntries = (firstSeen L).length ∧
    ((r, c) ∈ L →
      ((((DSTable.init n).pushAll L).Push_ r c).2).NumEntries =
        ((DSTable.init n).pushAll L).NumEntries) ∧
    ((r, c) ∉ L →
      ((((DSTable.init n).pushAll L).Push_ r c).2).NumEntries =
        ((DSTable.init n).pushAll L).NumEntries + 1) ∧
    (∀ p ∈ L, ∃ i : Nat, (firstSeen L)[i]? = some p ∧
      ((DSTable.init n).pushAll L).Index p.1 p.2 = (i : Int)) ∧
    (∀ i : Nat, i < ((DSTable.init n).pushAll L).NumEntries →
      ∃ p, p ∈ L ∧ (firstSeen L)[i]? = some p ∧
        ((DSTable.init n).pushAll L).Index p.1 p.2 = (i : Int)) := by
  have hm := pushAll_models L (DSTable.init n) [] (init_models n) (fun p hp => hL p hp)
  have hmF : ((DSTable.init n).pushAll L).Models (firstSeen L) := hm
  have hNR : ((DSTable.init n).pushAll L).NumRows = n := by rw [pushAll_NumRows]; rfl
  refine ⟨?_, hmF.2.1, ?_, ?_, ?_, ?_⟩
  · by_cases hmem : (r, c) ∈ firstSeen L
    · obtain ⟨i, hi⟩ := List.getElem?_of_mem hmem
      have hpush := Models.push_seen _ _ hmF r c i hi
      rw [hpush]
      exact hpush
    · obtain ⟨hpush, hmodels⟩ := Models.push_new _ _ hmF r c (by rw [hNR]; exact hr) hmem
      rw [hpush]
      exact Models.push_seen _ _ hmodels r c (firstSeen L).length
        (List.getElem?_concat_length (firstSeen L) (r, c))
  · intro hmemL
    obtain ⟨i, hi⟩ := List.getElem?_of_mem ((firstSeen_mem L _).mpr hmemL)
    rw [Models.push_seen _ _ hmF r c i hi]
  · intro hnm
    have hmem : (r, c) ∉ firstSeen L := fun h => hnm ((firstSeen_mem L _).mp h)
    obtain ⟨hpush, _⟩ := Models.push_new _ _ hmF r c (by rw [hNR]; exact hr) hmem
    rw [hpush, hmF.2.1]
  · intro p hp
    obtain ⟨i, hi⟩ := List.getElem?_of_mem ((firstSeen_mem L p).mpr hp)
    exact ⟨i, hi, Models.index_eq _ _ hmF p.1 p.2 i hi (by rw [hNR]; exact hL p hp)⟩
  · intro i hi
    have hilt : i < (firstSeen L).length := by rw [← hmF.2.1]; exact hi
    have hFi : ∃ p, (firstSeen L)[i]? = some p := by
      rw [List.getElem?_eq_getElem hilt]
      exact ⟨_, rfl⟩
    obtain ⟨p, hp⟩ := hFi
    have hpF : p ∈ firstSeen L := by
      obtain ⟨hl, he⟩ := List.getElem?_eq_some.mp hp
      exact he ▸ List.getElem_mem hl
    have hpL : p ∈ L := (firstSeen_mem L p).mp hpF
    exact ⟨p, hpL, hp, Models.index_eq _ _ hmF p.1 p.2 i hp (by rw [hNR]; exact hL p hpL)⟩

theorem c7_dstable_push_witness :
    ((DSTable.init 2).pushAll [(0, 5), (1, 7), (0, 5)]).NumEntries = 2 ∧
    ((DSTable.init 2).pushAll [(0, 5), (1, 7), (0, 5)]).Index 1 7 = 1 := by
  constructor
  · exact (c7_dstable_push 2 [(0, 5), (1, 7), (0, 5)] 0 5 (by decide) (by decide)).2.1.trans
      (by decide)
  · obtain ⟨i, hi, hidx⟩ := (c7_dstable_push 2 [(0, 5), (1, 7), (0, 5)] 0 5 (by decide)
      (by decide)).2.2.2.2.1 (1, 7) (by decide)
    have : i = 1 := by
      have h2 : (firstSeen [(0, 5), (1, 7), (0, 5)])[i]? = some (1, 7) := hi
      have h3 : firstSeen [(0, 5), (1, 7), (0, 5)] = [(0, 5), (1, 7)] := by decide
      rw [h3] at h2
      rcases i with _ | _ | i
      · cases h2
      · rfl
      · cases h2
    rw [this] at hidx
    exact hidx

/-! The entity-set loader. -/

/-- C8: when the first line of the stream is anything other than
`"MFEM sets v1.0"`, `EntitySets::Load` returns normally with the instance
untouched — in particular a freshly constructed instance stays a valid
instance with zero groups for every kind — and `CopyMeshTables()` is not
reached, so no mesh table is re-acquired (the `meshTablesCopied` flag of
the result is whatever it was before, `false` on a fresh instance). -/
theorem c8_load_unknown_version (vv : Int → Int → Int) (ft3 : Int → Int → Int → Int)
    (ft4 : Int → Int → Int → Int → Int) (s : String) (rest : List Tok) (es : EntitySets)
    (hs : s ≠ "MFEM sets v1.0") :
    EntitySets.Load vv ft3 ft4 (Tok.str s :: rest) es = some es ∧
    EntitySets.Load vv ft3 ft4 (Tok.str s :: rest) EntitySets.empty = some EntitySets.empty ∧
    (∀ t : EntityType, EntitySets.GetNumSets EntitySets.empty t = 0) ∧
    EntitySets.empty.meshTablesCopied = false := by
  have h1 : ∀ es' : EntitySets,
      EntitySets.Load vv ft3 ft4 (Tok.str s :: rest) es' = some es' := by
    intro es'
    rw [EntitySets.Load]
    dsimp only [readLine]
    rw [if_neg hs]
  exact ⟨h1 es, h1 _, fun t => by cases t <;> rfl, rfl⟩

theorem c8_load_unknown_version_witness :
    EntitySets.Load (fun _ _ => 0) (fun _ _ _ => 0) (fun _ _ _ _ => 0)
      [Tok.str "MFEM mesh v1.0"] EntitySets.empty = some EntitySets.empty :=
  (c8_load_unknown_version (fun _ _ => 0) (fun _ _ _ => 0) (fun _ _ _ _ => 0)
    "MFEM mesh v1.0" [] EntitySets.empty (by decide)).2.1

/-- C10: on a recognized v1.0 stream declaring dimension `d` (here with
empty sections, which keeps the mesh-table parameters out of play), the
loader always parses `vertex_sets` and `element_sets`, parses `edge_sets`
exactly when `d > 1` and `face_sets` exactly when `d > 2` — the load
succeeds precisely when the sections present match the dimension — and a
v1.0 stream with `d ≤ 1` that nevertheless carries an `edge_sets` section
is the fatal `MFEM_VERIFY` keyword mismatch (the loader demands
`element_sets` where `edge_sets` stands), not a skipped section. -/
theorem c10_load_dimension_gating (vv : Int → Int → Int) (ft3 : Int → Int → Int → Int)
    (ft4 : Int → Int → Int → Int → Int) (d : Int) (es : EntitySets) :
    (∀ eSec fSec : Bool,
      (EntitySets.Load vv ft3 ft4 (v10Stream d eSec fSec) es).isSome ↔
        (eSec = decide (d > 1) ∧ fSec = decide (d > 2))) ∧
    (d ≤ 1 → ∀ fSec : Bool,
      EntitySets.Load vv ft3 ft4 (v10Stream d true fSec) es = none) := by
  constructor
  · intro eSec fSec
    by_cases h1 : (1 : Int) < d
    · by_cases h2 : (2 : Int) < d
      · cases eSec <;> cases fSec <;>
          simp [EntitySets.Load, LoadEntitySets, loadSetList, v10Stream, sectionToks,
            readLine, readStr, readInt, EntitySets.CopyMeshTables, h1, h2]
      · cases eSec <;> cases fSec <;>
          simp [EntitySets.Load, LoadEntitySets, loadSetList, v10Stream, sectionToks,
            readLine, readStr, readInt, EntitySets.CopyMeshTables, h1, h2]
    · have h2 : ¬((2 : Int) < d) := by omega
      cases eSec <;> cases fSec <;>
        simp [EntitySets.Load, LoadEntitySets, loadSetList, v10Stream, sectionToks,
          readLine, readStr, readInt, EntitySets.CopyMeshTables, h1, h2]
  · intro hd fSec
    have h1 : ¬((1 : Int) < d) := by omega
    have h2 : ¬((2 : Int) < d) := by omega
    cases fSec <;>
      simp [EntitySets.Load, LoadEntitySets, loadSetList, v10Stream, sectionToks,
        readLine, readStr, readInt, EntitySets.CopyMeshTables, h1, h2]

theorem c10_load_dimension_gating_witness :
    EntitySets.Load (fun _ _ => 0) (fun _ _ _ => 0) (fun _ _ _ _ => 0)
      (v10Stream 1 true false) EntitySets.empty = none :=
  (c10_load_dimension_gating (fun _ _ => 0) (fun _ _ _ => 0) (fun _ _ _ _ => 0) 1
    EntitySets.empty).2 (by decide) false

/-! Lemmas for `Mult`. -/

theorem row_subset_J (t : Table) (i : Nat) (c : Int) (hc : c ∈ t.row i) : c ∈ t.J :=
  ((List.take_sublist _ _).trans (List.drop_sublist _ _)).mem hc

theorem foldl_width_init_le : ∀ (l : List Int) (a : Int),
    a ≤ l.foldl (fun w c => if c > w then c else w) a := by
  intro l
  induction l with
  | nil => intro a; exact le_refl a
  | cons x l ih =>
      intro a
      refine le_trans ?_ (ih (if x > a then x else a))
      by_cases hx : x > a
      · rw [if_pos hx]; exact le_of_lt hx
      · rw [if_neg hx]

theorem foldl_width_mem_le : ∀ (l : List Int) (a c : Int), c ∈ l →
    c ≤ l.foldl (fun w c => if c > w then c else w) a := by
  intro l
  induction l with
  | nil => intro a c hc; cases hc
  | cons x l ih =>
      intro a c hc
      rcases List.mem_cons.mp hc with h | h
      · subst h
        refine le_trans ?_ (foldl_width_init_le l (if c > a then c else a))
        by_cases hx : c > a
        · rw [if_pos hx]
        · rw [if_neg hx]; omega
      · exact ih _ c h

theorem widthInt_bound (t : Table) (hwf : t.WF) (c : Int) (hc : c ∈ t.J) :
    c < t.widthInt := by
  rw [Table.widthInt]
  have htake : t.J.take (t.rowBegin t.size) = t.J := by rw [hwf.2.2.2, List.take_length]
  rw [htake]
  have := foldl_width_mem_le t.J (-1) c hc
  omega

theorem widthInt_nonneg (t : Table) : 0 ≤ t.widthInt := by
  rw [Table.widthInt]
  have := foldl_width_init_le (t.J.take (t.rowBegin t.size)) (-1)
  omega

theorem markerStep_new (W i : Nat) (marker emitted : List Int) (m : Int)
    (h : MarkerInv W i marker emitted) (hm0 : 0 ≤ m) (hmW : m.toNat < W)
    (hne : marker.getD m.toNat 0 ≠ (i : Int)) :
    MarkerInv W i (marker.set m.toNat (i : Int)) (emitted ++ [m]) ∧ m ∉ emitted := by
  obtain ⟨hlen, hnd, hiff, hle⟩ := h
  have hmnat : ((m.toNat : Nat) : Int) = m := Int.toNat_of_nonneg hm0
  have hnotmem : m ∉ emitted := by
    intro hmem
    exact hne ((hiff m.toNat hmW).mpr (by rw [hmnat]; exact hmem))
  refine ⟨⟨by rw [List.length_set, hlen], ?_, ?_, ?_⟩, hnotmem⟩
  · rw [List.nodup_append]
    exact ⟨hnd, List.nodup_singleton _, fun a ha hb => by
      rw [List.mem_singleton] at hb
      subst hb
      exact hnotmem ha⟩
  · intro n hn
    by_cases hnm : n = m.toNat
    · subst hnm
      rw [getD_set_eq _ _ _ _ (by rw [hlen]; exact hmW)]
      simp [hmnat]
    · rw [getD_set_neq _ _ _ _ _ (fun hh : m.toNat = n => hnm hh.symm), List.mem_append,
        List.mem_singleton]
      have hnem : ¬((n : Int) = m) := by
        intro hh
        apply hnm
        rw [← hh] at hmnat ⊢
        omega
      rw [hiff n hn]
      simp [hnem]
  · intro n hn
    by_cases hnm : n = m.toNat
    · subst hnm
      rw [getD_set_eq _ _ _ _ (by rw [hlen]; exact hmW)]
    · rw [getD_set_neq _ _ _ _ _ (fun hh : m.toNat = n => hnm hh.symm)]
      exact hle n hn

theorem multScanB_inv (i W : Nat) : ∀ (brow : List Int),
    (∀ m ∈ brow, 0 ≤ m ∧ m.toNat < W) →
    ∀ marker emitted : List Int, MarkerInv W i marker emitted →
      MarkerInv W i (multScanB i brow (marker, emitted)).1
        (multScanB i brow (marker, emitted)).2 ∧
      (∀ x, x ∈ (multScanB i brow (marker, emitted)).2 ↔ x ∈ emitted ∨ x ∈ brow) := by
  intro brow
  induction brow with
  | nil =>
      intro _ marker emitted h
      exact ⟨h, fun x => by simp [multScanB]⟩
  | cons m brow ih =>
      intro hb marker emitted h
      obtain ⟨hm0, hmW⟩ := hb m (List.mem_cons_self _ _)
      have hb' : ∀ m' ∈ brow, 0 ≤ m' ∧ m'.toNat < W :=
        fun m' hm' => hb m' (List.mem_cons_of_mem _ hm')
      show MarkerInv W i
          (multScanB i brow (if marker.getD m.toNat 0 ≠ (i : Int)
            then (marker.set m.toNat (i : Int), emitted ++ [m]) else (marker, emitted))).1
          (multScanB i brow (if marker.getD m.toNat 0 ≠ (i : Int)
            then (marker.set m.toNat (i : Int), emitted ++ [m]) else (marker, emitted))).2 ∧
        (∀ x, x ∈ (multScanB i brow (if marker.getD m.toNat 0 ≠ (i : Int)
            then (marker.set m.toNat (i : Int), emitted ++ [m]) else (marker, emitted))).2 ↔
          x ∈ emitted ∨ x ∈ m :: brow)
      by_cases hne : marker.getD m.toNat 0 ≠ (i : Int)
      · rw [if_pos hne]
        obtain ⟨hinv', _⟩ := markerStep_new W i marker emitted m h hm0 hmW hne
        obtain ⟨hinv'', hmem''⟩ := ih hb' _ _ hinv'
        refine ⟨hinv'', fun x => ?_⟩
        rw [hmem'' x, List.mem_append, List.mem_singleton, List.mem_cons]
        tauto
      · rw [if_neg hne]
        push_neg at hne
        have hmem : m ∈ emitted := by
          have h2 := (h.2.2.1 m.toNat hmW).mp hne
          rwa [Int.toNat_of_nonneg hm0] at h2
        obtain ⟨hinv'', hmem''⟩ := ih hb' _ _ h
        refine ⟨hinv'', fun x => ?_⟩
        rw [hmem'' x, List.mem_cons]
        constructor
        · rintro (hx | hx)
          · exact Or.inl hx
          · exact Or.inr (Or.inr hx)
        · rintro (hx | hx | hx)
          · exact Or.inl hx
          · exact Or.inl (hx ▸ hmem)
          · exact Or.inr hx

theorem multRowC_fold_inv (B : Table) (i W : Nat) : ∀ (arow : List Int),
    (∀ k ∈ arow, ∀ m ∈ B.row k.toNat, 0 ≤ m ∧ m.toNat < W) →
    ∀ st : List Int × List Int, MarkerInv W i st.1 st.2 →
      MarkerInv W i (arow.foldl (fun st k => multScanB i (B.row k.toNat) st) st).1
        (arow.foldl (fun st k => multScanB i (B.row k.toNat) st) st).2 ∧
      (∀ x, x ∈ (arow.foldl (fun st k => multScanB i (B.row k.toNat) st) st).2 ↔
        x ∈ st.2 ∨ ∃ k ∈ arow, x ∈ B.row k.toNat) := by
  intro arow
  induction arow with
  | nil =>
      intro _ st h
      exact ⟨h, fun x => by simp⟩
  | cons k arow ih =>
      intro hk st h
      rw [List.foldl_cons]
      have hbrow : ∀ m ∈ B.row k.toNat, 0 ≤ m ∧ m.toNat < W :=
        hk k (List.mem_cons_self _ _)
      have hk' : ∀ k' ∈ arow, ∀ m ∈ B.row k'.toNat, 0 ≤ m ∧ m.toNat < W :=
        fun k' hk'' => hk k' (List.mem_cons_of_mem _ hk'')
      obtain ⟨hinv1, hmem1⟩ := multScanB_inv i W (B.row k.toNat) hbrow st.1 st.2 h
      obtain ⟨hinv2, hmem2⟩ := ih hk' (multScanB i (B.row k.toNat) (st.1, st.2)) hinv1
      constructor
      · exact hinv2
      · intro x
        rw [hmem2 x, hmem1 x]
        constructor
        · rintro ((hx | hx) | ⟨k', hk', hx⟩)
          · exact Or.inl hx
          · exact Or.inr ⟨k, List.mem_cons_self _ _, hx⟩
          · exact Or.inr ⟨k', List.mem_cons_of_mem _ hk', hx⟩
        · rintro (hx | ⟨k', hk', hx⟩)
          · exact Or.inl (Or.inl hx)
          · rcases List.mem_cons.mp hk' with hkk | hkk
            · exact Or.inl (Or.inr (hkk ▸ hx))
            · exact Or.inr ⟨k', hkk, hx⟩

theorem multRows_eq_aux (A B : Table) : multRows A B = multRowsAux A B A.size := rfl

theorem multRowsAux_inv (A B : Table)
    (hB : ∀ k : Nat, ∀ m ∈ B.row k, 0 ≤ m ∧ m.toNat < B.widthInt.toNat) :
    ∀ N : Nat,
      (multRowsAux A B N).1.length = B.widthInt.toNat ∧
      (∀ n, n < B.widthInt.toNat → (multRowsAux A B N).1.getD n 0 < (N : Int)) ∧
      (multRowsAux A B N).2.length = N ∧
      (∀ i, i < N → ((multRowsAux A B N).2.getD i []).Nodup ∧
        (∀ x, x ∈ (multRowsAux A B N).2.getD i [] ↔ ∃ k ∈ A.row i, x ∈ B.row k.toNat)) := by
  intro N
  induction N with
  | zero =>
      refine ⟨by simp [multRowsAux], ?_, by simp [multRowsAux], by simp⟩
      intro n hn
      show (List.replicate B.widthInt.toNat (-1 : Int)).getD n 0 < 0
      rw [List.getD_eq_getElem _ _ (by simpa using hn), List.getElem_replicate]
      omega
  | succ N ih =>
      obtain ⟨hlen, hlt, hrlen, hrows⟩ := ih
      have hstep : multRowsAux A B (N + 1) =
          ((multRowC B N (multRowsAux A B N).1 (A.row N)).1,
           (multRowsAux A B N).2 ++ [(multRowC B N (multRowsAux A B N).1 (A.row N)).2]) := by
        rw [multRowsAux, multRowsAux, List.range_succ, List.foldl_append, List.foldl_cons,
          List.foldl_nil]
      have hminit : MarkerInv B.widthInt.toNat N (multRowsAux A B N).1 [] := by
        refine ⟨hlen, List.nodup_nil, ?_, ?_⟩
        · intro n hn
          constructor
          · intro hh
            exact absurd hh (by have := hlt n hn; omega)
          · intro hh
            cases hh
        · intro n hn
          exact le_of_lt (hlt n hn)
      obtain ⟨hinv, hmem⟩ := multRowC_fold_inv B N B.widthInt.toNat (A.row N)
        (fun k _ m hm => hB k.toNat m hm) ((multRowsAux A B N).1, []) hminit
      have hrc : (A.row N).foldl (fun st k => multScanB N (B.row k.toNat) st)
          ((multRowsAux A B N).1, []) = multRowC B N (multRowsAux A B N).1 (A.row N) := rfl
      rw [hrc] at hinv hmem
      obtain ⟨hlen', hnd', hiff', hle'⟩ := hinv
      refine ⟨?_, ?_, ?_, ?_⟩
      · rw [hstep]
        exact hlen'
      · intro n hn
        rw [hstep]
        have := hle' n hn
        push_cast
        omega
      · rw [hstep]
        simp [hrlen]
      · intro i hi
        rw [hstep]
        rcases Nat.lt_or_ge i N with hiN | hiN
        · rw [List.getD_append _ _ _ _ (by rw [hrlen]; exact hiN)]
          exact hrows i hiN
        · have hieq : i = N := by omega
          subst hieq
          rw [List.getD_append_right _ _ _ _ (by rw [hrlen])]
          rw [hrlen, Nat.sub_self]
          refine ⟨hnd', ?_⟩
          intro x
          rw [show ([(multRowC B i (multRowsAux A B i).1 (A.row i)).2] : List (List Int)).getD
            0 [] = (multRowC B i (multRowsAux A B i).1 (A.row i)).2 from rfl]
          have := hmem x
          rw [this]
          simp [multRowC]

/-- C1: for well-formed sentinel-free tables (all column entries are
genuine column indices, `≥ 0`), `Mult(A,B,C)` is the fatal `mfem_error`
precisely when `A.Width() > B.Size()`; otherwise it produces `C` whose
entry `(i,m)` exists if and only if there is a `k` with `(i,k)` an entry
of `A` and `(k,m)` an entry of `B`, and no column appears twice within a
row of `C` (the shared marker array, stamped with the current row index,
suppresses duplicates). -/
theorem c1_mult_composition (A B : Table) (hwfA : A.WF) (hwfB : B.WF)
    (hAnn : ∀ c ∈ A.J, 0 ≤ c) (hBnn : ∀ c ∈ B.J, 0 ≤ c) :
    ((B.size : Int) < A.widthInt → Mult A B = none) ∧
    (A.widthInt ≤ (B.size : Int) →
      ∃ C, Mult A B = some C ∧
        (∀ (i : Nat) (m : Int), i < A.size →
          (m ∈ C.row i ↔ ∃ k : Nat, (k : Int) ∈ A.row i ∧ m ∈ B.row k)) ∧
        (∀ i : Nat, (C.row i).Nodup)) := by
  have hBbound : ∀ k : Nat, ∀ m ∈ B.row k, 0 ≤ m ∧ m.toNat < B.widthInt.toNat := by
    intro k m hm
    have hmJ := row_subset_J B k m hm
    have h0 := hBnn m hmJ
    have hw := widthInt_bound B hwfB m hmJ
    exact ⟨h0, by omega⟩
  obtain ⟨_, _, hrlen, hrows⟩ := multRowsAux_inv A B hBbound A.size
  constructor
  · intro h
    rw [Mult, if_pos h]
  · intro h
    refine ⟨Table.ofRows (multRows A B).2, by rw [Mult, if_neg (by omega)], ?_, ?_⟩
    · intro i m hi
      rw [ofRows_row, multRows_eq_aux, (hrows i hi).2 m]
      constructor
      · rintro ⟨k, hk, hm⟩
        have hk0 : 0 ≤ k := hAnn k (row_subset_J A i k hk)
        exact ⟨k.toNat, by rwa [Int.toNat_of_nonneg hk0], hm⟩
      · rintro ⟨k, hk, hm⟩
        exact ⟨(k : Int), hk, by simpa using hm⟩
    · intro i
      rw [ofRows_row, multRows_eq_aux]
      rcases Nat.lt_or_ge i A.size with hi | hi
      · exact (hrows i hi).1
      · rw [List.getD_eq_default _ _ (by rw [hrlen]; exact hi)]
        exact List.nodup_nil

theorem c1_mult_composition_witness :
    (1 : Int) ∈ ((Mult ⟨2, [0, 1, 2], [1, 0]⟩ ⟨2, [0, 1, 2], [0, 1]⟩).getD
      (Table.ofRows [])).row 0 := by
  obtain ⟨C, hC, hmem, _⟩ := (c1_mult_composition ⟨2, [0, 1, 2], [1, 0]⟩ ⟨2, [0, 1, 2], [0, 1]⟩
    (by decide) (by decide) (by decide) (by decide)).2 (by decide)
  rw [hC]
  exact (hmem 0 1 (by decide)).mpr ⟨1, by decide, by decide⟩

/-! Lemmas for `Transpose`. -/

theorem transHist_length : ∀ (cols : List Int) (arr : List Nat),
    (transHist cols arr).length = arr.length := by
  intro cols
  induction cols with
  | nil => intro arr; rfl
  | cons c cols ih =>
      intro arr
      show (transHist cols (arr.set (c.toNat + 1) (arr.getD (c.toNat + 1) 0 + 1))).length =
        arr.length
      rw [ih, List.length_set]

theorem transHist_getD : ∀ (cols : List Int) (arr : List Nat) (k : Nat), k < arr.length →
    (transHist cols arr).getD k 0 =
      arr.getD k 0 + cols.countP (fun c => c.toNat + 1 = k) := by
  intro cols
  induction cols with
  | nil => intro arr k _; simp [transHist]
  | cons c cols ih =>
      intro arr k hk
      show (transHist cols (arr.set (c.toNat + 1) (arr.getD (c.toNat + 1) 0 + 1))).getD k 0 = _
      rw [ih _ k (by rw [List.length_set]; exact hk)]
      by_cases hck : c.toNat + 1 = k
      · rw [← hck, getD_set_eq _ _ _ _ (by rw [hck]; exact hk),
          List.countP_cons_of_pos _ _ (by simp)]
        omega
      · rw [getD_set_neq _ _ _ _ _ hck, List.countP_cons_of_neg _ _ (by simpa using hck)]

theorem foldl_prefix_length : ∀ (l : List Nat) (arr : List Nat),
    (l.foldl (fun a i => a.set (i + 1) (a.getD (i + 1) 0 + a.getD i 0)) arr).length =
      arr.length := by
  intro l
  induction l with
  | nil => intro arr; rfl
  | cons x l ih =>
      intro arr
      rw [List.foldl_cons, ih, List.length_set]

theorem transPrefix_length (ncols : Nat) (arr : List Nat) :
    (transPrefix ncols arr).length = arr.length := by
  rw [transPrefix, foldl_prefix_length]

theorem transPrefix_aux : ∀ (n : Nat) (arr : List Nat), n + 1 < arr.length →
    ∀ k, k < arr.length →
      ((List.range' 1 n).foldl
        (fun a i => a.set (i + 1) (a.getD (i + 1) 0 + a.getD i 0)) arr).getD k 0 =
      if 1 ≤ k ∧ k ≤ n + 1 then ∑ t ∈ Finset.range k, arr.getD (t + 1) 0
      else arr.getD k 0 := by
  intro n
  induction n with
  | zero =>
      intro arr _ k hk
      show arr.getD k 0 = _
      by_cases h1 : 1 ≤ k ∧ k ≤ 1
      · have : k = 1 := by omega
        subst this
        rw [if_pos h1, Finset.sum_range_one]
      · rw [if_neg h1]
  | succ n ih =>
      intro arr hn k hk
      have hcat : List.range' 1 (n + 1) = List.range' 1 n ++ [n + 1] := by
        have h := @List.range'_concat 1 1 n
        simpa [Nat.add_comm] using h
      rw [hcat, List.foldl_append, List.foldl_cons, List.foldl_nil]
      have hr := ih arr (by omega)
      have hrlen : ((List.range' 1 n).foldl
          (fun a i => a.set (i + 1) (a.getD (i + 1) 0 + a.getD i 0)) arr).length =
          arr.length := foldl_prefix_length _ _
      by_cases hks : k = n + 1 + 1
      · subst hks
        rw [getD_set_eq _ _ _ _ (by rw [hrlen]; exact hk)]
        rw [hr (n + 1 + 1) hk, hr (n + 1) (by omega)]
        rw [if_neg (by omega), if_pos (by omega), if_pos (by omega)]
        conv_rhs => rw [Finset.sum_range_succ]
        omega
      · rw [getD_set_neq _ _ _ _ _ (fun hh : n + 1 + 1 = k => hks hh.symm), hr k hk]
        by_cases h1 : 1 ≤ k ∧ k ≤ n + 1
        · rw [if_pos h1, if_pos (by omega)]
        · rw [if_neg h1, if_neg (by omega)]

theorem transPrefix_getD (ncols : Nat) (arr : List Nat) (hlen : arr.length = ncols + 1) :
    ∀ k, k ≤ ncols →
      (transPrefix ncols arr).getD k 0 =
        if k = 0 then arr.getD 0 0 else ∑ t ∈ Finset.range k, arr.getD (t + 1) 0 := by
  intro k hk
  rcases Nat.eq_zero_or_pos ncols with h0 | hpos
  · subst h0
    have : k = 0 := by omega
    subst this
    show arr.getD 0 0 = _
    rw [if_pos rfl]
  · rw [transPrefix, transPrefix_aux (ncols - 1) arr (by omega) k (by omega)]
    by_cases hk0 : k = 0
    · subst hk0
      rw [if_neg (by omega), if_pos rfl]
    · rw [if_pos (by omega), if_neg hk0]

/-! Bucket-count arithmetic for the `Transpose` scatter pass. -/

theorem colCount_nil (c : Nat) : colCount [] c = 0 := rfl

theorem colCount_append (l r : List (Nat × Int)) (c : Nat) :
    colCount (l ++ r) c = colCount l c + colCount r c := by
  rw [colCount, colCount, colCount, List.countP_append]

theorem colCount_cons (q : Nat × Int) (ps : List (Nat × Int)) (c : Nat) :
    colCount (q :: ps) c = colCount ps c + (if q.2.toNat = c then 1 else 0) := by
  by_cases h : q.2.toNat = c
  · rw [colCount, List.countP_cons_of_pos _ _ (by simpa using h), if_pos h, colCount]
  · rw [colCount, List.countP_cons_of_neg _ _ (by simpa using h), if_neg h, colCount]
    omega

theorem colStart_succ (ps : List (Nat × Int)) (c : Nat) :
    colStart ps (c + 1) = colStart ps c + colCount ps c := rfl

theorem colStart_nil : ∀ c : Nat, colStart [] c = 0 := by
  intro c
  induction c with
  | zero => rfl
  | succ c ih => rw [colStart_succ, ih, colCount_nil]

theorem colStart_mono (ps : List (Nat × Int)) (c : Nat) : ∀ d : Nat, c ≤ d →
    colStart ps c ≤ colStart ps d := by
  intro d
  induction d with
  | zero =>
      intro h
      rw [Nat.le_zero.mp h]
  | succ d ih =>
      intro h
      rcases Nat.lt_or_ge c (d + 1) with h1 | h1
      · have := ih (by omega)
        rw [colStart_succ]
        omega
      · rw [show c = d + 1 from by omega]

theorem colStart_cons (q : Nat × Int) (ps : List (Nat × Int)) : ∀ c : Nat,
    colStart (q :: ps) c = colStart ps c + (if q.2.toNat < c then 1 else 0) := by
  intro c
  induction c with
  | zero => rfl
  | succ c ih =>
      rw [colStart_succ, colStart_succ, ih, colCount_cons]
      by_cases h1 : q.2.toNat = c
      · rw [if_pos h1, if_neg (by omega), if_pos (by omega)]
        omega
      · by_cases h2 : q.2.toNat < c
        · rw [if_neg h1, if_pos h2, if_pos (by omega)]
          omega
        · rw [if_neg h1, if_neg h2, if_neg (by omega)]
          omega

theorem colStart_le_length (ps : List (Nat × Int)) : ∀ c : Nat,
    colStart ps c ≤ ps.length := by
  induction ps with
  | nil =>
      intro c
      rw [colStart_nil]
      exact Nat.zero_le _
  | cons q ps ih =>
      intro c
      rw [colStart_cons]
      have := ih c
      by_cases h : q.2.toNat < c
      · rw [if_pos h, List.length_cons]
        omega
      · rw [if_neg h, List.length_cons]
        omega

theorem colStart_eq_length (n : Nat) : ∀ ps : List (Nat × Int),
    (∀ q ∈ ps, q.2.toNat < n) → colStart ps n = ps.length := by
  intro ps
  induction ps with
  | nil =>
      intro _
      rw [colStart_nil, List.length_nil]
  | cons q ps ih =>
      intro h
      rw [colStart_cons, if_pos (h q (List.mem_cons_self _ _)), List.length_cons,
        ih (fun p hp => h p (List.mem_cons_of_mem _ hp))]

/-! Writes of the scatter pass only touch their own bucket segment. -/

theorem seg_set_outside {α : Type} (X : List α) (m k pos : Nat) (v : α)
    (h : pos < m ∨ m + k ≤ pos) :
    ((X.set pos v).drop m).take k = (X.drop m).take k := by
  apply List.ext_getElem?
  intro n
  rw [List.getElem?_take, List.getElem?_take]
  by_cases hn : n < k
  · rw [if_pos hn, if_pos hn, List.getElem?_drop, List.getElem?_drop,
      List.getElem?_set_ne (by omega)]
  · rw [if_neg hn, if_neg hn]

theorem seg_set_extend {α : Type} (X : List α) (S n : Nat) (v : α) (L : List α)
    (hlen : S + n < X.length) (hseg : (X.drop S).take n = L) :
    ((X.set (S + n) v).drop S).take (n + 1) = L ++ [v] := by
  have hL : L.length = n := by
    rw [← hseg, List.length_take, List.length_drop]
    omega
  apply List.ext_getElem?
  intro t
  rw [List.getElem?_take]
  by_cases ht : t < n + 1
  · rw [if_pos ht, List.getElem?_drop]
    by_cases htn : t < n
    · rw [List.getElem?_set_ne (by omega)]
      have h1 : (X.drop S)[t]? = ((X.drop S).take n)[t]? := by
        rw [List.getElem?_take, if_pos htn]
      rw [← List.getElem?_drop, h1, hseg, List.getElem?_append_left (by omega)]
    · rw [show t = n from by omega, List.getElem?_set_self (by omega)]
      symm
      rw [List.getElem?_append_right (by omega)]
      simp [hL]
  · rw [if_neg ht]
    symm
    apply List.getElem?_eq_none
    rw [List.length_append, hL, List.length_singleton]
    omega

/-! The scatter-pass invariant of `Transpose`: `i_At` doubles as the
per-bucket write cursor, and after processing the entries `done` each
bucket `c` of `j_At` holds exactly the row indices of the processed
entries with column `c`, in order, starting at that bucket's offset. -/

theorem transScatter_inv (ncols : Nat) :
    ∀ (rest done : List (Nat × Int)) (cur : List Nat) (out : List Int),
      (∀ q ∈ done ++ rest, q.2.toNat < ncols) →
      cur.length = ncols + 1 →
      colStart (done ++ rest) ncols ≤ out.length →
      (∀ c, c < ncols → cur.getD c 0 = colStart (done ++ rest) c + colCount done c) →
      (∀ c, c < ncols →
        (out.drop (colStart (done ++ rest) c)).take (colCount done c) =
          (done.filter (fun q => q.2.toNat = c)).map (fun q => (q.1 : Int))) →
      (transScatter rest (cur, out)).1.length = cur.length ∧
      (transScatter rest (cur, out)).2.length = out.length ∧
      (∀ c, c < ncols → (transScatter rest (cur, out)).1.getD c 0 =
          colStart (done ++ rest) c + colCount (done ++ rest) c) ∧
      (∀ c, c < ncols →
        ((transScatter rest (cur, out)).2.drop (colStart (done ++ rest) c)).take
            (colCount (done ++ rest) c) =
          ((done ++ rest).filter (fun q => q.2.toNat = c)).map (fun q => (q.1 : Int))) := by
  intro rest
  induction rest with
  | nil =>
      intro done cur out hcols hcur hout hval hseg
      refine ⟨rfl, rfl, ?_, ?_⟩
      · intro c hc
        have h := hval c hc
        show cur.getD c 0 = _
        rw [List.append_nil] at h ⊢
        rw [h]
      · intro c hc
        have h := hseg c hc
        show (out.drop _).take _ = _
        rw [List.append_nil] at h ⊢
        exact h
  | cons p rest ih =>
      intro done cur out hcols hcur hout hval hseg
      have hstep : transScatter (p :: rest) (cur, out) =
          transScatter rest
            (cur.set p.2.toNat (cur.getD p.2.toNat 0 + 1),
             out.set (cur.getD p.2.toNat 0) (p.1 : Int)) := rfl
      have hassoc : ∀ l : List (Nat × Int), done ++ p :: l = (done ++ [p]) ++ l := by
        intro l
        rw [List.append_assoc, List.singleton_append]
      have hc0 : p.2.toNat < ncols := hcols p (by simp)
      have hposval : cur.getD p.2.toNat 0 =
          colStart (done ++ p :: rest) p.2.toNat + colCount done p.2.toNat :=
        hval p.2.toNat hc0
      have hcnt0 : colCount (done ++ p :: rest) p.2.toNat =
          colCount done p.2.toNat + colCount rest p.2.toNat + 1 := by
        rw [colCount_append, colCount_cons, if_pos rfl]
        omega
      have hposlt : cur.getD p.2.toNat 0 < out.length := by
        have h1 : colStart (done ++ p :: rest) (p.2.toNat + 1) =
            colStart (done ++ p :: rest) p.2.toNat + colCount (done ++ p :: rest) p.2.toNat :=
          colStart_succ _ _
        have h2 := colStart_mono (done ++ p :: rest) (p.2.toNat + 1) ncols hc0
        omega
      have hcols' : ∀ q ∈ (done ++ [p]) ++ rest, q.2.toNat < ncols := by
        rw [← hassoc]
        exact hcols
      have hcur' : (cur.set p.2.toNat (cur.getD p.2.toNat 0 + 1)).length = ncols + 1 := by
        rw [List.length_set]
        exact hcur
      have hout' : colStart ((done ++ [p]) ++ rest) ncols ≤
          (out.set (cur.getD p.2.toNat 0) (p.1 : Int)).length := by
        rw [List.length_set, ← hassoc]
        exact hout
      have hcntp : ∀ c : Nat, colCount (done ++ [p]) c =
          colCount done c + (if p.2.toNat = c then 1 else 0) := by
        intro c
        rw [colCount_append, colCount_cons, colCount_nil, Nat.zero_add]
      have hval' : ∀ c, c < ncols →
          (cur.set p.2.toNat (cur.getD p.2.toNat 0 + 1)).getD c 0 =
            colStart ((done ++ [p]) ++ rest) c + colCount (done ++ [p]) c := by
        intro c hc
        rw [← hassoc, hcntp]
        by_cases hcc : p.2.toNat = c
        · rw [← hcc, getD_set_eq _ _ _ _ (by omega), if_pos rfl, ← hcc] at *
          omega
        · rw [getD_set_neq _ _ _ _ _ hcc, if_neg hcc, hval c hc]
          omega
      have hseg' : ∀ c, c < ncols →
          ((out.set (cur.getD p.2.toNat 0) (p.1 : Int)).drop
              (colStart ((done ++ [p]) ++ rest) c)).take (colCount (done ++ [p]) c) =
            ((done ++ [p]).filter (fun q => q.2.toNat = c)).map (fun q => (q.1 : Int)) := by
        intro c hc
        rw [← hassoc, hcntp]
        by_cases hcc : p.2.toNat = c
        · have hfilt : (done ++ [p]).filter (fun q => q.2.toNat = c) =
              done.filter (fun q => q.2.toNat = c) ++ [p] := by
            simp [List.filter_append, List.filter_cons, hcc]
          rw [hfilt, if_pos hcc, List.map_append, List.map_cons, List.map_nil]
          have hpos' : cur.getD p.2.toNat 0 =
              colStart (done ++ p :: rest) c + colCount done c := by
            rw [← hcc]
            exact hposval
          rw [hpos']
          exact seg_set_extend out _ _ _ _ (by omega) (hseg c hc)
        · have hfilt : (done ++ [p]).filter (fun q => q.2.toNat = c) =
              done.filter (fun q => q.2.toNat = c) := by
            simp [List.filter_append, List.filter_cons, hcc]
          rw [hfilt, if_neg hcc, Nat.add_zero]
          have houtside : cur.getD p.2.toNat 0 < colStart (done ++ p :: rest) c ∨
              colStart (done ++ p :: rest) c + colCount done c ≤ cur.getD p.2.toNat 0 := by
            rcases Nat.lt_or_ge p.2.toNat c with hlt | hge
            · left
              have h1 : colStart (done ++ p :: rest) (p.2.toNat + 1) =
                  colStart (done ++ p :: rest) p.2.toNat +
                    colCount (done ++ p :: rest) p.2.toNat := colStart_succ _ _
              have h2 := colStart_mono (done ++ p :: rest) (p.2.toNat + 1) c hlt
              omega
            · right
              have hceq : c < p.2.toNat := by omega
              have h1 : colStart (done ++ p :: rest) (c + 1) =
                  colStart (done ++ p :: rest) c + colCount (done ++ p :: rest) c :=
                colStart_succ _ _
              have h2 := colStart_mono (done ++ p :: rest) (c + 1) p.2.toNat hceq
              have h3 : colCount done c ≤ colCount (done ++ p :: rest) c := by
                rw [colCount_append]
                omega
              omega
          rw [seg_set_outside out _ _ _ _ houtside]
          exact hseg c hc
      obtain ⟨h1, h2, h3, h4⟩ := ih (done ++ [p])
        (cur.set p.2.toNat (cur.getD p.2.toNat 0 + 1))
        (out.set (cur.getD p.2.toNat 0) (p.1 : Int))
        hcols' hcur' hout' hval' hseg'
      refine ⟨?_, ?_, ?_, ?_⟩
      · rw [hstep, h1, List.length_set]
      · rw [hstep, h2, List.length_set]
      · intro c hc
        rw [hstep, hassoc rest]
        exact h3 c hc
      · intro c hc
        rw [hstep, hassoc rest]
        exact h4 c hc

/-! The entry list `Table.pairs` against rows and `J`. -/

theorem pairs_mem (t : Table) (q : Nat × Int) :
    q ∈ t.pairs ↔ q.1 < t.size ∧ q.2 ∈ t.row q.1 := by
  rw [Table.pairs, List.mem_flatMap]
  constructor
  · rintro ⟨i, hi, hq⟩
    rw [List.mem_range] at hi
    rcases List.mem_map.mp hq with ⟨c, hc, hqc⟩
    subst hqc
    exact ⟨hi, hc⟩
  · rintro ⟨h1, h2⟩
    exact ⟨q.1, List.mem_range.mpr h1, List.mem_map.mpr ⟨q.2, h2, rfl⟩⟩

theorem pairs_map_snd (t : Table) (hwf : t.WF) :
    t.pairs.map Prod.snd = t.J := by
  rw [Table.pairs, List.map_flatMap]
  have h : (fun i => ((t.row i).map (fun c => (i, c))).map Prod.snd) = t.row := by
    funext i
    rw [List.map_map]
    simp
  rw [h, List.flatMap_def]
  exact rows_flatten t hwf

theorem pairs_length (t : Table) (hwf : t.WF) : t.pairs.length = t.J.length := by
  rw [← pairs_map_snd t hwf, List.length_map]

theorem colCount_pairs (t : Table) (hwf : t.WF) (c : Nat) :
    colCount t.pairs c = t.J.countP (fun x => x.toNat = c) := by
  conv_rhs => rw [← pairs_map_snd t hwf]
  rw [colCount, List.countP_map]
  rfl

theorem row_empty_of_ge (t : Table) (hwf : t.WF) (i : Nat) (hi : t.size ≤ i) :
    t.row i = [] := by
  obtain ⟨hlen, hfirst, hmono, hlast⟩ := hwf
  rcases Nat.eq_or_lt_of_le hi with heq | hlt
  · rw [Table.row, ← heq, hlast, List.drop_length, List.take_nil]
  · have h1 : t.rowBegin (i + 1) = 0 := by
      rw [Table.rowBegin, List.getD_eq_default _ _ (by omega)]
    rw [Table.row, h1, Nat.zero_sub, List.take_zero]

theorem colStart_eq_sum (ps : List (Nat × Int)) : ∀ c : Nat,
    colStart ps c = ∑ t ∈ Finset.range c, colCount ps t := by
  intro c
  induction c with
  | zero => rfl
  | succ c ih => rw [colStart_succ, ih, Finset.sum_range_succ]

/-! After the histogram and partial prefix-sum passes, `i_At[c]` holds the
start offset of column bucket `c`. -/

theorem transpose_pre_getD (A : Table) (hwf : A.WF) (ncols : Nat) :
    ∀ c, c ≤ ncols →
      (transPrefix ncols (transHist A.J (List.replicate (ncols + 1) 0))).getD c 0 =
        colStart A.pairs c := by
  intro c hc
  have hlenh : (transHist A.J (List.replicate (ncols + 1) 0)).length = ncols + 1 := by
    rw [transHist_length, List.length_replicate]
  rw [transPrefix_getD ncols _ hlenh c hc]
  by_cases hc0 : c = 0
  · subst hc0
    rw [if_pos rfl, transHist_getD _ _ 0 (by rw [List.length_replicate]; omega),
      getD_replicate_self]
    have hcnt : A.J.countP (fun x => x.toNat + 1 = 0) = 0 :=
      List.countP_eq_zero.mpr (fun a _ => by simp)
    rw [hcnt]
    rfl
  · rw [if_neg hc0, colStart_eq_sum]
    apply Finset.sum_congr rfl
    intro t ht
    rw [Finset.mem_range] at ht
    rw [transHist_getD _ _ (t + 1) (by rw [List.length_replicate]; omega),
      getD_replicate_self, colCount_pairs A hwf, Nat.zero_add]
    apply List.countP_congr
    intro a _
    simp only [decide_eq_true_eq]
    omega

/-! A table of the shape `Transpose` builds: shifted cursor array as `I`,
scatter output as `J`. -/

theorem transpose_shape (ps : List (Nat × Int)) (ncols : Nat) (cur : List Nat)
    (out : List Int)
    (hcl : cur.length = ncols + 1)
    (hol : out.length = ps.length)
    (hcur : ∀ c, c < ncols → cur.getD c 0 = colStart ps c + colCount ps c)
    (hseg : ∀ c, c < ncols → (out.drop (colStart ps c)).take (colCount ps c) =
        (ps.filter (fun q => q.2.toNat = c)).map (fun q => (q.1 : Int)))
    (htoNat : ∀ q ∈ ps, q.2.toNat < ncols) :
    (Table.mk ncols (0 :: cur.take ncols) out).WF ∧
    (∀ jn, jn ≤ ncols →
      (Table.mk ncols (0 :: cur.take ncols) out).rowBegin jn = colStart ps jn) ∧
    (∀ jn, jn < ncols →
      (Table.mk ncols (0 :: cur.take ncols) out).row jn =
        (ps.filter (fun q => q.2.toNat = jn)).map (fun q => (q.1 : Int))) := by
  have hIproj : (Table.mk ncols (0 :: cur.take ncols) out).I = 0 :: cur.take ncols := rfl
  have hJproj : (Table.mk ncols (0 :: cur.take ncols) out).J = out := rfl
  have hszproj : (Table.mk ncols (0 :: cur.take ncols) out).size = ncols := rfl
  have hrb : ∀ jn, jn ≤ ncols →
      (Table.mk ncols (0 :: cur.take ncols) out).rowBegin jn = colStart ps jn := by
    intro jn hjn
    rw [Table.rowBegin, hIproj]
    cases jn with
    | zero => rfl
    | succ m =>
        rw [List.getD_cons_succ]
        have hm : m < ncols := by omega
        have htk : (cur.take ncols).getD m 0 = cur.getD m 0 := by
          rw [List.getD_eq_getElem?_getD, List.getElem?_take, if_pos hm,
            ← List.getD_eq_getElem?_getD]
        rw [htk, hcur m hm, colStart_succ]
  refine ⟨?_, hrb, ?_⟩
  · rw [Table.WF, hIproj, hJproj, hszproj]
    refine ⟨?_, ?_, ?_, ?_⟩
    · rw [List.length_cons, List.length_take, hcl]
      omega
    · rw [hrb 0 (Nat.zero_le _)]
      rfl
    · intro i hi
      rw [hrb i (Nat.le_of_lt hi), hrb (i + 1) (by omega), colStart_succ]
      exact Nat.le_add_right _ _
    · rw [hrb ncols (Nat.le_refl _), hol]
      exact colStart_eq_length ncols ps htoNat
  · intro jn hjn
    rw [Table.row, hrb jn (Nat.le_of_lt hjn), hrb (jn + 1) (by omega), hJproj]
    have harg : colStart ps (jn + 1) - colStart ps jn = colCount ps jn := by
      rw [colStart_succ]
      omega
    rw [harg]
    exact hseg jn hjn

/-- Assembled structure of `Transpose A ncols` for a well-formed `A` whose
entries all lie in `[0, ncols)`. -/
theorem transpose_core (A : Table) (ncols : Nat) (hwf : A.WF)
    (hcols : ∀ c ∈ A.J, 0 ≤ c ∧ c < (ncols : Int)) :
    (Transpose A ncols).WF ∧
    (Transpose A ncols).J.length = A.J.length ∧
    (∀ jn, jn ≤ ncols → (Transpose A ncols).rowBegin jn = colStart A.pairs jn) ∧
    (∀ jn, jn < ncols → (Transpose A ncols).row jn =
      (A.pairs.filter (fun q => q.2.toNat = jn)).map (fun q => (q.1 : Int))) := by
  have htoNat : ∀ q ∈ A.pairs, q.2.toNat < ncols := by
    intro q hq
    have hJm : q.2 ∈ A.J := row_subset_J A q.1 q.2 ((pairs_mem A q).mp hq).2
    have h := hcols q.2 hJm
    omega
  have htake : A.J.take (A.rowBegin A.size) = A.J := by
    rw [hwf.2.2.2, List.take_length]
  have hnnz : A.rowBegin A.size = A.J.length := hwf.2.2.2
  have hprelen : (transPrefix ncols (transHist A.J (List.replicate (ncols + 1) 0))).length
      = ncols + 1 := by
    rw [transPrefix_length, transHist_length, List.length_replicate]
  obtain ⟨h1len, h2len, hcur, hseg⟩ :=
    transScatter_inv ncols A.pairs []
      (transPrefix ncols (transHist A.J (List.replicate (ncols + 1) 0)))
      (List.replicate A.J.length 0)
      (fun q hq => htoNat q (by simpa using hq))
      hprelen
      (by rw [List.nil_append, List.length_replicate, ← pairs_length A hwf]
          exact colStart_le_length _ _)
      (by intro c hc
          rw [List.nil_append, colCount_nil, Nat.add_zero]
          exact transpose_pre_getD A hwf ncols c (Nat.le_of_lt hc))
      (by intro c hc
          rw [colCount_nil, List.take_zero, List.filter_nil, List.map_nil])
  simp only [List.nil_append] at hcur hseg
  have htr0 : Transpose A ncols = Table.mk ncols
      (0 :: (transScatter A.pairs
        (transPrefix ncols (transHist (A.J.take (A.rowBegin A.size))
          (List.replicate (ncols + 1) 0)),
         List.replicate (A.rowBegin A.size) 0)).1.take ncols)
      (transScatter A.pairs
        (transPrefix ncols (transHist (A.J.take (A.rowBegin A.size))
          (List.replicate (ncols + 1) 0)),
         List.replicate (A.rowBegin A.size) 0)).2 := rfl
  rw [htake, hnnz] at htr0
  obtain ⟨hWF, hrb, hrowc⟩ := transpose_shape A.pairs ncols
    (transScatter A.pairs
      (transPrefix ncols (transHist A.J (List.replicate (ncols + 1) 0)),
       List.replicate A.J.length 0)).1
    (transScatter A.pairs
      (transPrefix ncols (transHist A.J (List.replicate (ncols + 1) 0)),
       List.replicate A.J.length 0)).2
    (by rw [h1len, hprelen])
    (by rw [h2len, List.length_replicate, ← pairs_length A hwf])
    hcur hseg htoNat
  rw [htr0]
  refine ⟨hWF, ?_, hrb, hrowc⟩
  show (transScatter A.pairs
      (transPrefix ncols (transHist A.J (List.replicate (ncols + 1) 0)),
       List.replicate A.J.length 0)).2.length = A.J.length
  rw [h2len, List.length_replicate]

/-! Entry-reversal of `Transpose`, and the range of the transposed
entries. -/

theorem transpose_mem (A : Table) (ncols : Nat) (hwf : A.WF)
    (hcols : ∀ c ∈ A.J, 0 ≤ c ∧ c < (ncols : Int)) :
    ∀ jn i : Nat, ((i : Int) ∈ (Transpose A ncols).row jn ↔ (jn : Int) ∈ A.row i) := by
  obtain ⟨hWF, hJlen, hrb, hrow⟩ := transpose_core A ncols hwf hcols
  intro jn i
  by_cases hjn : jn < ncols
  · rw [hrow jn hjn]
    constructor
    · intro hmem
      rcases List.mem_map.mp hmem with ⟨q, hq, hcast⟩
      rcases List.mem_filter.mp hq with ⟨hqps, hqc⟩
      have hqc' : q.2.toNat = jn := by simpa using hqc
      obtain ⟨hq1, hq2⟩ := (pairs_mem A q).mp hqps
      have hqpos : 0 ≤ q.2 := (hcols q.2 (row_subset_J A q.1 q.2 hq2)).1
      have hq2' : q.2 = (jn : Int) := by omega
      have hq1' : q.1 = i := by exact_mod_cast hcast
      rw [← hq2', ← hq1']
      exact hq2
    · intro hmem
      apply List.mem_map.mpr
      refine ⟨(i, (jn : Int)), ?_, rfl⟩
      apply List.mem_filter.mpr
      refine ⟨(pairs_mem A (i, (jn : Int))).mpr ⟨?_, hmem⟩, by simp⟩
      by_contra hge
      rw [row_empty_of_ge A hwf i (by omega)] at hmem
      exact absurd hmem (List.not_mem_nil _)
  · constructor
    · intro hmem
      have hrowe : (Transpose A ncols).row jn = [] := by
        apply row_empty_of_ge _ hWF
        show ncols ≤ jn
        omega
      rw [hrowe] at hmem
      exact absurd hmem (List.not_mem_nil _)
    · intro hmem
      have hJm : (jn : Int) ∈ A.J := row_subset_J A i _ hmem
      have h := (hcols _ hJm).2
      have h2 : jn < ncols := by exact_mod_cast h
      exact absurd h2 hjn

theorem transpose_J_mem (A : Table) (ncols : Nat) (hwf : A.WF)
    (hcols : ∀ c ∈ A.J, 0 ≤ c ∧ c < (ncols : Int)) :
    ∀ c ∈ (Transpose A ncols).J, 0 ≤ c ∧ c < (A.size : Int) := by
  obtain ⟨hWF, hJlen, hrb, hrow⟩ := transpose_core A ncols hwf hcols
  intro c hc
  rw [← rows_flatten _ hWF] at hc
  rcases List.mem_flatten.mp hc with ⟨rw0, hrmem, hcrow⟩
  rcases List.mem_map.mp hrmem with ⟨jn, hjnr, hrowjn⟩
  rw [List.mem_range] at hjnr
  have hsz : (Transpose A ncols).size = ncols := rfl
  rw [hsz] at hjnr
  rw [← hrowjn, hrow jn hjnr] at hcrow
  rcases List.mem_map.mp hcrow with ⟨q, hq, hcast⟩
  rcases List.mem_filter.mp hq with ⟨hqps, _⟩
  obtain ⟨hq1, _⟩ := (pairs_mem A q).mp hqps
  rw [← hcast]
  exact ⟨Int.natCast_nonneg q.1, by exact_mod_cast hq1⟩

/-- C2: for every well-formed StaticTable `A` with no unset sentinels (all
stored columns nonnegative) and `ncols ≥ A.Width()`, `Transpose(A, At,
ncols)` produces a well-formed `At` whose entry set is exactly the reverse
of `A`'s — `(j, i)` is an entry of `At` iff `(i, j)` is an entry of `A` —
and consequently transposing `At` back (over `A`'s row count, which bounds
every entry of `At`) reproduces `A`'s set of (row, column) pairs exactly. -/
theorem c2_transpose (A : Table) (ncols : Nat) (hwf : A.WF)
    (hpos : ∀ c ∈ A.J, 0 ≤ c) (hw : A.widthInt ≤ (ncols : Int)) :
    (Transpose A ncols).WF ∧
    (∀ jn i : Nat, ((i : Int) ∈ (Transpose A ncols).row jn ↔ (jn : Int) ∈ A.row i)) ∧
    (∀ r : Nat, ∀ c : Int,
      c ∈ (Transpose (Transpose A ncols) A.size).row r ↔ c ∈ A.row r) := by
  have hcols : ∀ c ∈ A.J, 0 ≤ c ∧ c < (ncols : Int) := by
    intro c hc
    have h1 := widthInt_bound A hwf c hc
    exact ⟨hpos c hc, by omega⟩
  obtain ⟨hWF, hJlen, hrb, hrow⟩ := transpose_core A ncols hwf hcols
  refine ⟨hWF, transpose_mem A ncols hwf hcols, ?_⟩
  have hcols2 : ∀ c ∈ (Transpose A ncols).J, 0 ≤ c ∧ c < (A.size : Int) :=
    transpose_J_mem A ncols hwf hcols
  have hmem2 := transpose_mem (Transpose A ncols) A.size hWF hcols2
  have hmem1 := transpose_mem A ncols hwf hcols
  have hJ2 := transpose_J_mem (Transpose A ncols) A.size hWF hcols2
  intro r c
  rcases Int.lt_or_le c 0 with hneg | hnn
  · constructor
    · intro hc
      have h := (hJ2 c (row_subset_J _ r c hc)).1
      exact absurd h (by omega)
    · intro hc
      have h := hpos c (row_subset_J _ r c hc)
      exact absurd h (by omega)
  · have hcn : ((c.toNat : Nat) : Int) = c := Int.toNat_of_nonneg hnn
    rw [← hcn]
    exact (hmem2 r c.toNat).trans (hmem1 c.toNat r)

theorem c2_transpose_witness :
    (0 : Int) ∈ (Transpose ⟨2, [0, 2, 3], [0, 2, 1]⟩ 3).row 2 :=
  ((c2_transpose ⟨2, [0, 2, 3], [0, 2, 1]⟩ 3 (by decide) (by decide)
    (by decide)).2.1 2 0).mpr (by decide)
